import Mathlib

/-!
Verification of the `singleflight` call-coalescing registry and the
`bloomfilter` probabilistic set, shallowly embedded from the Go sources.

Singleflight (`Group.Do` / `Group.DoChan` / `Group.Forget`) is embedded as a
small-step interleaving machine:

* every region executed while holding `g.mu` is one atomic step (the mutex
  serializes those regions), and every lock-free statement of the source is
  its own step, so all interleavings of the Go program are captured;
* a `sync.WaitGroup` is a counter: `Add(1)` at record creation sets it to 1,
  `Done` decrements it, `Wait` unblocks once the counter is `≤ 0`.  Driving
  the counter negative makes the Go runtime panic; we record that as a
  `fault` and freeze the machine (an unrecovered panic aborts the process);
* Go `interface{}` values and `error` values are `Option V` / `Option E`,
  with `none` standing for `nil` (the zero value of both);
* each `DoChan` channel is buffered with capacity one, written exactly once
  and then closed by the single goroutine that captured it, and is never
  touched by any other goroutine, so its final resolved content is carried
  inside the owning thread's terminal phase (`Phase.chDone`);
* `g.m` is `Option` of an association list, `none` standing for the Go nil
  map of a zero-initialized `Group`; reading a nil map finds nothing.

`GState.fnCalls` and `GState.cleanups` are ghost instrumentation counters:
they count executed unit-of-work callables and executed step-4 removals and
never influence the dynamics.
-/

namespace Singleflight

/-- The fields of the Go `call` struct: `val`, `err`, and the `sync.WaitGroup`
`wg`.  `wg` is the counter (1 after the `Add(1)` at creation); `dones` is a
ghost count of how many times `Done` was invoked on this record. -/
structure Call (V E : Type) where
  val : Option V
  err : Option E
  wg : Int
  dones : Nat
deriving DecidableEq

/-- The Go `Result` struct returned through a `DoChan` channel. -/
structure Result (V E : Type) where
  val : Option V
  err : Option E
  shared : Bool
deriving DecidableEq

/-- The program counter of one goroutine running `Do`, `DoChan` (the spawned
goroutine inclusive) or `Forget` on a shared `Group`.  A unit-of-work callable
is represented by the `(value, error)` pair it returns; `r` is the index of a
call record in `GState.recs`.

`Do` (source lines 29-55): `doStart` is the first locked region (lazy map
allocation, lookup, and either registration or joining); `doWait` is
`c.wg.Wait()` followed by the joiner's read of `c.val, c.err`; `doExec` is
`c.val, c.err = fn()`; `doSignal` is `c.wg.Done()`; `doCleanup` is the second
locked region `delete(g.m, key)`; `doRet` is the executor's final read of
`c.val, c.err`; `retDone` holds the pair `Do` returned.

`DoChan` (lines 58-93): `chStart` is the channel allocation plus first locked
region; the joiner goroutine is `chJoinWait` (`c.wg.Wait()`) then `chJoinSend`
(send `Result{c.val, c.err, true}` and close); the executor goroutine is
`chExec`, `chExecSignal`, `chExecCleanup`, `chExecSend` mirroring `Do`'s
steps with a final send of `Result{c.val, c.err, false}`; `chDone` holds the
resolved content of this call's private channel.

`Forget` (lines 97-104): one locked region, `forgetStart` to `forgetDone`. -/
inductive Phase (V E : Type) where
  | doStart (key : String) (fn : Option V × Option E)
  | doWait (r : Nat)
  | doExec (r : Nat) (key : String) (fn : Option V × Option E)
  | doSignal (r : Nat) (key : String)
  | doCleanup (r : Nat) (key : String)
  | doRet (r : Nat)
  | retDone (val : Option V) (err : Option E)
  | chStart (key : String) (fn : Option V × Option E)
  | chJoinWait (r : Nat)
  | chJoinSend (r : Nat)
  | chExec (r : Nat) (key : String) (fn : Option V × Option E)
  | chExecSignal (r : Nat) (key : String)
  | chExecCleanup (r : Nat) (key : String)
  | chExecSend (r : Nat)
  | chDone (res : Result V E)
  | forgetStart (key : String)
  | forgetDone
deriving DecidableEq

/-- The shared state of one `Group`: the registry map `m` (`none` = Go nil
map), the call records ever created, two ghost counters, and the fault flag
(a Go runtime panic, which aborts the process). -/
structure GState (V E : Type) where
  m : Option (List (String × Nat))
  recs : List (Call V E)
  fnCalls : Nat
  cleanups : Nat
  fault : Bool
deriving DecidableEq

/-- A configuration: the shared `Group` state plus every goroutine's phase. -/
structure Config (V E : Type) where
  g : GState V E
  ths : List (Phase V E)
deriving DecidableEq

/-- Reading `g.m[key]`: a Go nil map simply finds nothing. -/
def mapLookup (m : Option (List (String × Nat))) (k : String) : Option Nat :=
  match m with
  | none => none
  | some l => l.lookup k

/-- Go map assignment `m[key] = r` on an allocated map. -/
def listInsert (l : List (String × Nat)) (k : String) (r : Nat) :
    List (String × Nat) :=
  (k, r) :: l.eraseP (fun p => p.1 == k)

/-- Go `delete(m, key)`; deleting from a nil map is a no-op. -/
def mapDelete (m : Option (List (String × Nat))) (k : String) :
    Option (List (String × Nat)) :=
  match m with
  | none => none
  | some l => some (l.eraseP (fun p => p.1 == k))

/-- The call record at index `r` (every reachable access is in bounds). -/
def recGet (recs : List (Call V E)) (r : Nat) : Call V E :=
  recs.getD r ⟨none, none, 0, 0⟩

/-- `c.wg.Done()` on record `r`: decrement the counter; a negative counter is
the Go panic `sync: negative WaitGroup counter`, recorded as a fault. -/
def recDone (g : GState V E) (r : Nat) : GState V E :=
  let c := recGet g.recs r
  { g with
    recs := g.recs.set r { c with wg := c.wg - 1, dones := c.dones + 1 },
    fault := g.fault || decide (c.wg - 1 < 0) }

/-- One step of goroutine `i`.  A faulted machine (unrecovered panic) takes no
further steps; a goroutine whose `Wait` is not yet enabled, or that has
already finished, leaves the configuration unchanged. -/
def stepThread (c : Config V E) (i : Nat) : Config V E :=
  if c.g.fault then c else
  match c.ths[i]? with
  | none => c
  | some ph =>
    match ph with
    | .doStart k fn =>
      let l := c.g.m.getD []
      match l.lookup k with
      | some r => ⟨{ c.g with m := some l }, c.ths.set i (.doWait r)⟩
      | none =>
        let r := c.g.recs.length
        ⟨{ c.g with m := some (listInsert l k r),
                    recs := c.g.recs ++ [⟨none, none, 1, 0⟩] },
          c.ths.set i (.doExec r k fn)⟩
    | .doWait r =>
      let rc := recGet c.g.recs r
      if rc.wg ≤ 0 then ⟨c.g, c.ths.set i (.retDone rc.val rc.err)⟩ else c
    | .doExec r k fn =>
      let rc := recGet c.g.recs r
      ⟨{ c.g with recs := c.g.recs.set r { rc with val := fn.1, err := fn.2 },
                  fnCalls := c.g.fnCalls + 1 },
        c.ths.set i (.doSignal r k)⟩
    | .doSignal r k => ⟨recDone c.g r, c.ths.set i (.doCleanup r k)⟩
    | .doCleanup r k =>
      ⟨{ c.g with m := mapDelete c.g.m k, cleanups := c.g.cleanups + 1 },
        c.ths.set i (.doRet r)⟩
    | .doRet r =>
      let rc := recGet c.g.recs r
      ⟨c.g, c.ths.set i (.retDone rc.val rc.err)⟩
    | .retDone _ _ => c
    | .chStart k fn =>
      let l := c.g.m.getD []
      match l.lookup k with
      | some r => ⟨{ c.g with m := some l }, c.ths.set i (.chJoinWait r)⟩
      | none =>
        let r := c.g.recs.length
        ⟨{ c.g with m := some (listInsert l k r),
                    recs := c.g.recs ++ [⟨none, none, 1, 0⟩] },
          c.ths.set i (.chExec r k fn)⟩
    | .chJoinWait r =>
      let rc := recGet c.g.recs r
      if rc.wg ≤ 0 then ⟨c.g, c.ths.set i (.chJoinSend r)⟩ else c
    | .chJoinSend r =>
      let rc := recGet c.g.recs r
      ⟨c.g, c.ths.set i (.chDone ⟨rc.val, rc.err, true⟩)⟩
    | .chExec r k fn =>
      let rc := recGet c.g.recs r
      ⟨{ c.g with recs := c.g.recs.set r { rc with val := fn.1, err := fn.2 },
                  fnCalls := c.g.fnCalls + 1 },
        c.ths.set i (.chExecSignal r k)⟩
    | .chExecSignal r k => ⟨recDone c.g r, c.ths.set i (.chExecCleanup r k)⟩
    | .chExecCleanup r k =>
      ⟨{ c.g with m := mapDelete c.g.m k, cleanups := c.g.cleanups + 1 },
        c.ths.set i (.chExecSend r)⟩
    | .chExecSend r =>
      let rc := recGet c.g.recs r
      ⟨c.g, c.ths.set i (.chDone ⟨rc.val, rc.err, false⟩)⟩
    | .chDone _ => c
    | .forgetStart k =>
      match mapLookup c.g.m k with
      | some r =>
        ⟨{ recDone c.g r with m := mapDelete c.g.m k },
          c.ths.set i .forgetDone⟩
      | none => ⟨c.g, c.ths.set i .forgetDone⟩
    | .forgetDone => c

/-- Run a schedule: the list names, in order, which goroutine steps. -/
def run (c : Config V E) (s : List Nat) : Config V E :=
  s.foldl stepThread c

/-- The shared state of a zero-initialized `var g Group`: nil map, no call
records, counters zero, no fault. -/
def zeroG (V E : Type) : GState V E := ⟨none, [], 0, 0, false⟩

/-- A fresh machine: a zero-initialized `Group` and the given goroutines. -/
def init (ths : List (Phase V E)) : Config V E := ⟨zeroG V E, ths⟩

/-- Goroutine phases that are about to issue a call for key `k`. -/
def isStart (k : String) : Phase V E → Bool
  | .doStart k' _ => k' == k
  | .chStart k' _ => k' == k
  | _ => false

/-- Goroutine phases that are initial operations on key `k`: a `Do`, a
`DoChan` or a `Forget` that has not taken its first step yet. -/
def isInit (k : String) : Phase V E → Bool
  | .doStart k' _ => k' == k
  | .chStart k' _ => k' == k
  | .forgetStart k' => k' == k
  | _ => false

/-- Goroutine phases blocked on record 0's completion signal. -/
def isWait (t : Phase V E) : Prop :=
  t = .doWait 0 ∨ t = .chJoinWait 0

/-- A finished blocking `Do` call. -/
def isRetDone : Phase V E → Bool
  | .retDone _ _ => true
  | _ => false

/-- A finished `DoChan` goroutine (its private channel resolved and closed). -/
def isChDone : Phase V E → Bool
  | .chDone _ => true
  | _ => false

/-- Schedule condition for the coalescing scenarios: once any step-4 removal
has executed, no call for `k` is still unissued.  (This is the "issued before
any of them completes" hypothesis of the coalescing guarantee.) -/
def noLateStart (k : String) (c : Config V E) : Prop :=
  0 < c.g.cleanups → ∀ t ∈ c.ths, isStart k t = false

instance (k : String) (c : Config V E) : Decidable (noLateStart k c) :=
  inferInstanceAs
    (Decidable (0 < c.g.cleanups → ∀ t ∈ c.ths, isStart k t = false))

/-- Every key occurring in a goroutine's phase is `k` (single-key scenario;
phases without a key satisfy this trivially). -/
def usesKey (k : String) : Phase V E → Prop
  | .doStart k' _ => k' = k
  | .doExec _ k' _ => k' = k
  | .doSignal _ k' => k' = k
  | .doCleanup _ k' => k' = k
  | .chStart k' _ => k' = k
  | .chExec _ k' _ => k' = k
  | .chExecSignal _ k' => k' = k
  | .chExecCleanup _ k' => k' = k
  | .forgetStart k' => k' = k
  | _ => True

/-- The record index, key and stage of an executor that has not yet run its
`delete(g.m, key)`: stage 1 before `fn()` returns, stage 2 before
`wg.Done()`, stage 3 before the removal. -/
def activeExec : Phase V E → Option (Nat × String × Nat)
  | .doExec r k _ => some (r, k, 1)
  | .chExec r k _ => some (r, k, 1)
  | .doSignal r k => some (r, k, 2)
  | .chExecSignal r k => some (r, k, 2)
  | .doCleanup r k => some (r, k, 3)
  | .chExecCleanup r k => some (r, k, 3)
  | _ => none

/-- The record index an executor goroutine still holds, removal included. -/
def recRef : Phase V E → Option Nat
  | .doExec r _ _ => some r
  | .chExec r _ _ => some r
  | .doSignal r _ => some r
  | .chExecSignal r _ => some r
  | .doCleanup r _ => some r
  | .chExecCleanup r _ => some r
  | .doRet r => some r
  | .chExecSend r => some r
  | _ => none

/-- Shared-state facts tied to an executor of record `r` at stage `st`: at
stage 3 the signal has been raised exactly once and the record is still
registered; before that, either the record is registered with its signal
pending, or a `Forget` has already unregistered it and raised its signal. -/
def stageStateOK (st : Nat) (k : String) (r : Nat) (g : GState V E) :
    Prop :=
  if st = 3 then
    mapLookup g.m k = some r ∧ (recGet g.recs r).wg = 0 ∧
      (recGet g.recs r).dones = 1
  else
    (mapLookup g.m k = some r ∧ (recGet g.recs r).wg = 1 ∧
        (recGet g.recs r).dones = 0) ∨
      (mapLookup g.m k ≠ some r ∧ (recGet g.recs r).wg = 0 ∧
        (recGet g.recs r).dones = 1)

/-- The safety invariant of a non-faulted single-key machine that may mix
`Do`, `DoChan` and `Forget` goroutines freely. -/
structure InvGOK (k : String) (c : Config V E) : Prop where
  key : ∀ t ∈ c.ths, usesKey k t
  shape : c.g.m = none ∨ c.g.m = some [] ∨
    ∃ r, r < c.g.recs.length ∧ c.g.m = some [(k, r)]
  bound : ∀ (i : Nat) (t : Phase V E) (r : Nat), c.ths[i]? = some t →
    recRef t = some r → r < c.g.recs.length
  state : ∀ (i : Nat) (t : Phase V E) (r st : Nat), c.ths[i]? = some t →
    activeExec t = some (r, k, st) → stageStateOK st k r c.g
  uniq : ∀ (i j : Nat) (t t' : Phase V E) (r : Nat), c.ths[i]? = some t →
    c.ths[j]? = some t' → recRef t = some r → recRef t' = some r → i = j
  mapped : ∀ r : Nat, mapLookup c.g.m k = some r →
    ∃ (i : Nat) (t : Phase V E) (st : Nat), c.ths[i]? = some t ∧
      activeExec t = some (r, k, st)

/-- A reachable configuration has either faulted (a Go panic aborted the
process) or satisfies the safety invariant. -/
def InvG (k : String) (c : Config V E) : Prop :=
  c.g.fault = true ∨ InvGOK k c

/-- The four stages of the unique executor of the single call record in a
no-`Forget`, single-key scenario: before `fn()` has returned, before
`wg.Done()`, before `delete(g.m, key)`, and after the removal. -/
inductive St where
  | s1
  | s2
  | s3
  | s4
deriving DecidableEq

/-- Phases of a joiner that has already been woken by the completion signal
of record 0, whose recorded result is `(v, e)`. -/
def passedOK (v : Option V) (e : Option E) (t : Phase V E) : Prop :=
  t = .retDone v e ∨ t = .chJoinSend 0 ∨ t = .chDone ⟨v, e, true⟩

/-- Invariant clause for every goroutine other than the executor: still
unissued (only before the removal), blocked on the signal, or woken. -/
def joinerOK (st : St) (k : String) (v : Option V) (e : Option E)
    (t : Phase V E) : Prop :=
  (st ≠ .s4 ∧ isStart k t = true) ∨ isWait t ∨
    ((st = .s3 ∨ st = .s4) ∧ passedOK v e t)

/-- Invariant clause for the executor's phase at each stage; in stage 4 its
`Do` returns `(v, e)`, or its `DoChan` channel resolves `(v, e, false)`. -/
def execOK (st : St) (k : String) (v : Option V) (e : Option E)
    (t : Phase V E) : Prop :=
  match st with
  | .s1 => ∃ f, t = .doExec 0 k f ∨ t = .chExec 0 k f
  | .s2 => t = .doSignal 0 k ∨ t = .chExecSignal 0 k
  | .s3 => t = .doCleanup 0 k ∨ t = .chExecCleanup 0 k
  | .s4 => t = .doRet 0 ∨ t = .chExecSend 0 ∨ t = .retDone v e ∨
      t = .chDone ⟨v, e, false⟩

/-- Invariant clause for the shared state at each executor stage: one record,
registered until stage 4, its signal raised from stage 3 on, the callable
executed exactly once from stage 2 on. -/
def stateOK (st : St) (k : String) (v : Option V) (e : Option E)
    (g : GState V E) : Prop :=
  match st with
  | .s1 => g.recs = [⟨none, none, 1, 0⟩] ∧ g.m = some [(k, 0)] ∧
      g.fnCalls = 0 ∧ g.cleanups = 0
  | .s2 => g.recs = [⟨v, e, 1, 0⟩] ∧ g.m = some [(k, 0)] ∧
      g.fnCalls = 1 ∧ g.cleanups = 0
  | .s3 => g.recs = [⟨v, e, 0, 1⟩] ∧ g.m = some [(k, 0)] ∧
      g.fnCalls = 1 ∧ g.cleanups = 0
  | .s4 => g.recs = [⟨v, e, 0, 1⟩] ∧ g.m = some [] ∧
      g.fnCalls = 1 ∧ g.cleanups = 1

/-- The registered branch of the coalescing invariant: goroutine `iE` (in
phase `tE`) is the unique executor at stage `st` of the single call record,
and every other goroutine is a joiner. -/
def Inv2At (k : String) (c : Config V E) (st : St) (v : Option V)
    (e : Option E) (iE : Nat) (tE : Phase V E) : Prop :=
  c.ths[iE]? = some tE ∧ execOK st k v e tE ∧ stateOK st k v e c.g ∧
    ∀ j, j ≠ iE → ∀ t, c.ths[j]? = some t → joinerOK st k v e t

/-- The coalescing invariant: in a machine whose goroutines all issue calls
for the one key `k` and never `Forget`, either no call has been issued yet,
or there is exactly one call record, owned by a unique executor goroutine
`iE`, and every other goroutine is an unissued caller, a blocked waiter, or
a waiter woken with exactly the record's result `(v, e)`. -/
def Inv2 (k : String) (c : Config V E) : Prop :=
  c.g.fault = false ∧
  ((c.g.m = none ∧ c.g.recs = [] ∧ c.g.fnCalls = 0 ∧ c.g.cleanups = 0 ∧
      ∀ t ∈ c.ths, isStart k t = true) ∨
    ∃ (st : St) (v : Option V) (e : Option E) (iE : Nat) (tE : Phase V E),
      Inv2At k c st v e iE tE)

end Singleflight

namespace Bloom

/-- FNV-64a offset basis (Go `hash/fnv`). -/
def fnvOffset : Nat := 14695981039346656037

/-- FNV-64a prime (Go `hash/fnv`). -/
def fnvPrime : Nat := 1099511628211

/-- One byte of FNV-64a: xor then multiply, in 64-bit arithmetic. -/
def fnv64aStep (h b : Nat) : Nat := ((h ^^^ b) * fnvPrime) % 2 ^ 64

/-- FNV-64a over a byte sequence, as computed by a `fnv.New64a()` hasher after
`Reset`, `Write`, `Sum64`. -/
def fnv64a (data : List Nat) : Nat := data.foldl fnv64aStep fnvOffset

/-- The `BloomFilter` struct.  Every entry of the Go `hashFuncs` slice is the
same `fnv.New64a()` hasher, distinguished only by the extra index byte written
in `Add`/`Contains`, so the slice is represented by its length `hashCount`. -/
structure BloomFilter where
  bitSet : List Bool
  size : Nat
  hashCount : Nat
deriving DecidableEq

/-- The bit position probed by hash function `i` for `data`: the source writes
`data` then `byte(i)` into the hasher and reduces `Sum64` modulo `size`. -/
def position (bf : BloomFilter) (data : List Nat) (i : Nat) : Nat :=
  fnv64a (data ++ [i % 256]) % bf.size

/-- `Add` (source lines 55-73): set the probed bit of every hash function. -/
def Add (bf : BloomFilter) (data : List Nat) : BloomFilter :=
  { bf with
    bitSet := (List.range bf.hashCount).foldl
      (fun bs i => bs.set (position bf data i) true) bf.bitSet }

/-- `Contains` (source lines 77-100): true iff every probed bit is set. -/
def Contains (bf : BloomFilter) (data : List Nat) : Bool :=
  (List.range bf.hashCount).all fun i => bf.bitSet.getD (position bf data i) false

/-- `Clear` (source lines 103-107): reset every bit to false in place. -/
def Clear (bf : BloomFilter) : BloomFilter :=
  { bf with bitSet := bf.bitSet.map fun _ => false }

/-- The filter `NewBloomFilter` returns once `optimalSize`/`optimalHashCount`
have produced the bitmap size `m` and hash count `k`: an all-false bitmap of
length `m`.  (The floating-point sizing formulas are abstracted into the two
parameters; for every intended input `n ≥ 1`, `0 < p < 1` the computed `m` is
positive.) -/
def mkBloomFilter (m k : Nat) : BloomFilter :=
  ⟨List.replicate m false, m, k⟩

/-- A whole sequence of `Add` operations. -/
def addAll (bf : BloomFilter) (ds : List (List Nat)) : BloomFilter :=
  ds.foldl Add bf

end Bloom

namespace Singleflight

section Scenarios

variable {V E : Type}

/-- C3: the completion signal of every call record is signaled exactly once
across every combination of `Do`, `DoChan` and `Forget`.  The code violates
this: with one `Do("k", fn)` in flight, a concurrent `Forget("k")` calls
`c.wg.Done()` on the record (line 101) and the executor calls `c.wg.Done()`
again (line 48); the record is signaled twice and the `WaitGroup` counter
goes negative, which is a Go runtime panic (`fault`). -/
theorem forget_double_signal_fault :
    (run (V := Nat) (E := Nat)
        (init [.doStart "k" (some 1, none), .forgetStart "k"])
        [0, 1, 0, 0]).g.fault = true ∧
    (recGet (run (V := Nat) (E := Nat)
        (init [.doStart "k" (some 1, none), .forgetStart "k"])
        [0, 1, 0, 0]).g.recs 0).dones = 2 := by
  decide


/-- C4: after a `Do` call for a key returns with no other call for that key
in flight, the registry holds no record for the key, so two back-to-back
`Do` calls (the first fully completed before the second begins) each invoke
their unit-of-work callable: total executions = 2 and each caller gets its
own callable's result. -/
theorem record_removed_after_do (k : String) (fn1 fn2 : Option V × Option E) :
    mapLookup (run (init [.doStart k fn1, .doStart k fn2])
      [0, 0, 0, 0, 0]).g.m k = none ∧
    (run (init [.doStart k fn1, .doStart k fn2])
      [0, 0, 0, 0, 0]).g.fnCalls = 1 ∧
    (run (init [.doStart k fn1, .doStart k fn2])
      [0, 0, 0, 0, 0]).ths = [.retDone fn1.1 fn1.2, .doStart k fn2] ∧
    (run (init [.doStart k fn1, .doStart k fn2])
      [0, 0, 0, 0, 0, 1, 1, 1, 1, 1]).g.fnCalls = 2 ∧
    (run (init [.doStart k fn1, .doStart k fn2])
      [0, 0, 0, 0, 0, 1, 1, 1, 1, 1]).ths =
        [.retDone fn1.1 fn1.2, .retDone fn2.1 fn2.2] ∧
    mapLookup (run (init [.doStart k fn1, .doStart k fn2])
      [0, 0, 0, 0, 0, 1, 1, 1, 1, 1]).g.m k = none ∧
    (run (init [.doStart k fn1, .doStart k fn2])
      [0, 0, 0, 0, 0, 1, 1, 1, 1, 1]).g.fault = false := by
  simp [run, stepThread, init, zeroG, recGet, recDone, mapLookup, mapDelete,
    listInsert, List.lookup, List.eraseP]


/-- C5: a unit-of-work error is stored in the record and returned verbatim
(thread 0, the executor, and thread 1, a concurrent joiner, both get exactly
`(none, some e)` - the same failure for every caller sharing the execution);
the failed record is removed exactly like a successful one (no record for `k`
once the executor finished), so a later `Do` for `k` (thread 2) re-executes
its callable instead of replaying the stored failure: executions = 2. -/
theorem error_shared_verbatim_then_removed (k : String) (e : Option E)
    (fn2 fn3 : Option V × Option E) :
    (recGet (run (init [.doStart k ((none : Option V), e), .doStart k fn2,
        .doStart k fn3]) [0, 1, 0, 0, 1, 0, 0]).g.recs 0).err = e ∧
    (run (init [.doStart k ((none : Option V), e), .doStart k fn2,
        .doStart k fn3]) [0, 1, 0, 0, 1, 0, 0]).ths =
      [.retDone none e, .retDone none e, .doStart k fn3] ∧
    mapLookup (run (init [.doStart k ((none : Option V), e), .doStart k fn2,
        .doStart k fn3]) [0, 1, 0, 0, 1, 0, 0]).g.m k = none ∧
    (run (init [.doStart k ((none : Option V), e), .doStart k fn2,
        .doStart k fn3]) [0, 1, 0, 0, 1, 0, 0, 2, 2, 2, 2, 2]).ths =
      [.retDone none e, .retDone none e, .retDone fn3.1 fn3.2] ∧
    (run (init [.doStart k ((none : Option V), e), .doStart k fn2,
        .doStart k fn3]) [0, 1, 0, 0, 1, 0, 0, 2, 2, 2, 2, 2]).g.fnCalls = 2 ∧
    (run (init [.doStart k ((none : Option V), e), .doStart k fn2,
        .doStart k fn3]) [0, 1, 0, 0, 1, 0, 0, 2, 2, 2, 2, 2]).g.fault
      = false := by
  simp [run, stepThread, init, zeroG, recGet, recDone, mapLookup, mapDelete,
    listInsert, List.lookup, List.eraseP]

/-- C7: `Forget` on a key with no record is a no-op on the whole group state
(the registry raises no error of its own), and `Forget` on a registered key
removes the record at once, so the next `Do` (thread 2) creates a fresh
record (index 1, a second record) and executes its unit of work anew even
though the previously registered execution (thread 0, still at its `fn()`
step) has not finished: total executions = 2. -/
theorem forget_forces_fresh_execution (k : String)
    (g : GState V E) (hk : mapLookup g.m k = none) (hf : g.fault = false)
    (fnA fnB : Option V × Option E) :
    stepThread ⟨g, [.forgetStart k]⟩ 0 = ⟨g, [.forgetDone]⟩ ∧
    mapLookup (run (init [.doStart k fnA, .forgetStart k, .doStart k fnB])
      [0, 1]).g.m k = none ∧
    (run (init [.doStart k fnA, .forgetStart k, .doStart k fnB])
      [0, 1]).g.recs.length = 1 ∧
    mapLookup (run (init [.doStart k fnA, .forgetStart k, .doStart k fnB])
      [0, 1, 2]).g.m k = some 1 ∧
    (run (init [.doStart k fnA, .forgetStart k, .doStart k fnB])
      [0, 1, 2]).g.recs.length = 2 ∧
    (run (init [.doStart k fnA, .forgetStart k, .doStart k fnB])
      [0, 1, 2, 0, 2, 2, 2, 2]).ths =
      [.doSignal 0 k, .forgetDone, .retDone fnB.1 fnB.2] ∧
    (run (init [.doStart k fnA, .forgetStart k, .doStart k fnB])
      [0, 1, 2, 0, 2, 2, 2, 2]).g.fnCalls = 2 ∧
    (run (init [.doStart k fnA, .forgetStart k, .doStart k fnB])
      [0, 1, 2, 0, 2, 2, 2, 2]).g.fault = false := by
  constructor
  · simp [stepThread, hk, hf]
  · simp [run, stepThread, init, zeroG, recGet, recDone, mapLookup, mapDelete,
      listInsert, List.lookup, List.eraseP]

/-- C8: a `Do` joiner (thread 1) blocked on a record's completion signal and
released by `Forget` (thread 2) returns the record's never-set result fields
`(nil, nil)` = `(none, none)`, not the callable's eventual outcome: the
executor's callable later stores `some v` into the very same record. -/
theorem forget_releases_waiters_with_nil_result (k : String) (v : V)
    (e : Option E) (fn2 : Option V × Option E) :
    (run (init [.doStart k (some v, e), .doStart k fn2, .forgetStart k])
      [0, 1, 2, 1, 0]).ths =
      [.doSignal 0 k, .retDone none none, .forgetDone] ∧
    (recGet (run (init [.doStart k (some v, e), .doStart k fn2,
        .forgetStart k]) [0, 1, 2, 1, 0]).g.recs 0).val = some v ∧
    (run (init [.doStart k (some v, e), .doStart k fn2, .forgetStart k])
      [0, 1, 2, 1, 0]).g.fault = false := by
  simp [run, stepThread, init, zeroG, recGet, recDone, mapLookup, mapDelete,
    listInsert, List.lookup, List.eraseP]

/-- C9: every operation is safe on a zero-initialized `Group`: `Forget` on a
group whose map was never allocated is a fault-free no-op that does not even
allocate the map (the nil-map lookup finds nothing), while the first locked
region of `Do` and of `DoChan` lazily allocates the map, registers the call
record, and faults nowhere. -/
theorem zero_group_safe (k : String) (fn : Option V × Option E) :
    stepThread (init (V := V) (E := E) [.forgetStart k]) 0
      = ⟨zeroG V E, [.forgetDone]⟩ ∧
    stepThread (init [.doStart k fn]) 0
      = ⟨⟨some [(k, 0)], [⟨none, none, 1, 0⟩], 0, 0, false⟩,
          [.doExec 0 k fn]⟩ ∧
    stepThread (init [.chStart k fn]) 0
      = ⟨⟨some [(k, 0)], [⟨none, none, 1, 0⟩], 0, 0, false⟩,
          [.chExec 0 k fn]⟩ := by
  refine ⟨?_, ?_, ?_⟩ <;>
    simp [stepThread, init, zeroG, mapLookup, listInsert, List.lookup,
      List.eraseP]

end Scenarios

end Singleflight

namespace Singleflight

section Coalescing

variable {V E : Type}

/-- Every step leaves the number of goroutines unchanged. -/
theorem step_ths_length (c : Config V E) (i : Nat) :
    (stepThread c i).ths.length = c.ths.length := by
  unfold stepThread
  repeat' split
  all_goals try
    rename_i k fn heq
    cases hL : List.lookup k (c.g.m.getD []) <;> simp [hL, List.length_set]
  all_goals try
    rename_i k heq
    cases hF : mapLookup c.g.m k <;> simp [hF, List.length_set]
  all_goals simp [apply_ite Config.ths, apply_ite List.length,
    List.length_set, ite_self]

/-- A whole schedule leaves the number of goroutines unchanged. -/
theorem run_ths_length (c : Config V E) (s : List Nat) :
    (run c s).ths.length = c.ths.length := by
  induction s generalizing c with
  | nil => rfl
  | cons a s ih => rw [run, List.foldl_cons, ← run, ih, step_ths_length]

/-- The lookup `Do`/`DoChan` perform after the lazy allocation agrees with
reading the possibly-nil map directly. -/
theorem lookup_getD (m : Option (List (String × Nat))) (k : String) :
    (m.getD []).lookup k = mapLookup m k := by
  cases m <;> simp [mapLookup, List.lookup]

theorem step_eq_of_fault (c : Config V E) (i : Nat) (h : c.g.fault = true) :
    stepThread c i = c := by
  simp [stepThread, h]

theorem step_eq_oob (c : Config V E) (i : Nat) (hf : c.g.fault = false)
    (hi : c.ths[i]? = none) : stepThread c i = c := by
  simp [stepThread, hf, hi]

theorem step_doStart_join (c : Config V E) (i : Nat) (k : String)
    (fn : Option V × Option E) (r : Nat) (hf : c.g.fault = false)
    (hi : c.ths[i]? = some (.doStart k fn))
    (hm : mapLookup c.g.m k = some r) :
    stepThread c i
      = ⟨{ c.g with m := some (c.g.m.getD []) }, c.ths.set i (.doWait r)⟩ := by
  simp [stepThread, hf, hi, lookup_getD, hm]

theorem step_doStart_reg (c : Config V E) (i : Nat) (k : String)
    (fn : Option V × Option E) (hf : c.g.fault = false)
    (hi : c.ths[i]? = some (.doStart k fn))
    (hm : mapLookup c.g.m k = none) :
    stepThread c i
      = ⟨{ c.g with
            m := some (listInsert (c.g.m.getD []) k c.g.recs.length),
            recs := c.g.recs ++ [⟨none, none, 1, 0⟩] },
          c.ths.set i (.doExec c.g.recs.length k fn)⟩ := by
  simp [stepThread, hf, hi, lookup_getD, hm]

theorem step_doWait_blocked (c : Config V E) (i r : Nat)
    (hf : c.g.fault = false) (hi : c.ths[i]? = some (.doWait r))
    (hw : ¬(recGet c.g.recs r).wg ≤ 0) : stepThread c i = c := by
  simp [stepThread, hf, hi, hw]

theorem step_doWait_pass (c : Config V E) (i r : Nat)
    (hf : c.g.fault = false) (hi : c.ths[i]? = some (.doWait r))
    (hw : (recGet c.g.recs r).wg ≤ 0) :
    stepThread c i = ⟨c.g,
      c.ths.set i (.retDone (recGet c.g.recs r).val (recGet c.g.recs r).err)⟩
    := by
  simp [stepThread, hf, hi, hw]

theorem step_doExec (c : Config V E) (i r : Nat) (k : String)
    (fn : Option V × Option E) (hf : c.g.fault = false)
    (hi : c.ths[i]? = some (.doExec r k fn)) :
    stepThread c i
      = ⟨{ c.g with
            recs := c.g.recs.set r
              { recGet c.g.recs r with val := fn.1, err := fn.2 },
            fnCalls := c.g.fnCalls + 1 },
          c.ths.set i (.doSignal r k)⟩ := by
  simp [stepThread, hf, hi]

theorem step_doSignal (c : Config V E) (i r : Nat) (k : String)
    (hf : c.g.fault = false) (hi : c.ths[i]? = some (.doSignal r k)) :
    stepThread c i = ⟨recDone c.g r, c.ths.set i (.doCleanup r k)⟩ := by
  simp [stepThread, hf, hi]

theorem step_doCleanup (c : Config V E) (i r : Nat) (k : String)
    (hf : c.g.fault = false) (hi : c.ths[i]? = some (.doCleanup r k)) :
    stepThread c i
      = ⟨{ c.g with m := mapDelete c.g.m k, cleanups := c.g.cleanups + 1 },
          c.ths.set i (.doRet r)⟩ := by
  simp [stepThread, hf, hi]

theorem step_doRet (c : Config V E) (i r : Nat) (hf : c.g.fault = false)
    (hi : c.ths[i]? = some (.doRet r)) :
    stepThread c i = ⟨c.g,
      c.ths.set i (.retDone (recGet c.g.recs r).val (recGet c.g.recs r).err)⟩
    := by
  simp [stepThread, hf, hi]

theorem step_retDone (c : Config V E) (i : Nat) (v : Option V) (e : Option E)
    (hf : c.g.fault = false) (hi : c.ths[i]? = some (.retDone v e)) :
    stepThread c i = c := by
  simp [stepThread, hf, hi]

theorem step_chStart_join (c : Config V E) (i : Nat) (k : String)
    (fn : Option V × Option E) (r : Nat) (hf : c.g.fault = false)
    (hi : c.ths[i]? = some (.chStart k fn))
    (hm : mapLookup c.g.m k = some r) :
    stepThread c i
      = ⟨{ c.g with m := some (c.g.m.getD []) },
          c.ths.set i (.chJoinWait r)⟩ := by
  simp [stepThread, hf, hi, lookup_getD, hm]

theorem step_chStart_reg (c : Config V E) (i : Nat) (k : String)
    (fn : Option V × Option E) (hf : c.g.fault = false)
    (hi : c.ths[i]? = some (.chStart k fn))
    (hm : mapLookup c.g.m k = none) :
    stepThread c i
      = ⟨{ c.g with
            m := some (listInsert (c.g.m.getD []) k c.g.recs.length),
            recs := c.g.recs ++ [⟨none, none, 1, 0⟩] },
          c.ths.set i (.chExec c.g.recs.length k fn)⟩ := by
  simp [stepThread, hf, hi, lookup_getD, hm]

theorem step_chJoinWait_blocked (c : Config V E) (i r : Nat)
    (hf : c.g.fault = false) (hi : c.ths[i]? = some (.chJoinWait r))
    (hw : ¬(recGet c.g.recs r).wg ≤ 0) : stepThread c i = c := by
  simp [stepThread, hf, hi, hw]

theorem step_chJoinWait_pass (c : Config V E) (i r : Nat)
    (hf : c.g.fault = false) (hi : c.ths[i]? = some (.chJoinWait r))
    (hw : (recGet c.g.recs r).wg ≤ 0) :
    stepThread c i = ⟨c.g, c.ths.set i (.chJoinSend r)⟩ := by
  simp [stepThread, hf, hi, hw]

theorem step_chJoinSend (c : Config V E) (i r : Nat)
    (hf : c.g.fault = false) (hi : c.ths[i]? = some (.chJoinSend r)) :
    stepThread c i = ⟨c.g,
      c.ths.set i
        (.chDone ⟨(recGet c.g.recs r).val, (recGet c.g.recs r).err, true⟩)⟩
    := by
  simp [stepThread, hf, hi]

theorem step_chExec (c : Config V E) (i r : Nat) (k : String)
    (fn : Option V × Option E) (hf : c.g.fault = false)
    (hi : c.ths[i]? = some (.chExec r k fn)) :
    stepThread c i
      = ⟨{ c.g with
            recs := c.g.recs.set r
              { recGet c.g.recs r with val := fn.1, err := fn.2 },
            fnCalls := c.g.fnCalls + 1 },
          c.ths.set i (.chExecSignal r k)⟩ := by
  simp [stepThread, hf, hi]

theorem step_chExecSignal (c : Config V E) (i r : Nat) (k : String)
    (hf : c.g.fault = false) (hi : c.ths[i]? = some (.chExecSignal r k)) :
    stepThread c i = ⟨recDone c.g r, c.ths.set i (.chExecCleanup r k)⟩ := by
  simp [stepThread, hf, hi]

theorem step_chExecCleanup (c : Config V E) (i r : Nat) (k : String)
    (hf : c.g.fault = false) (hi : c.ths[i]? = some (.chExecCleanup r k)) :
    stepThread c i
      = ⟨{ c.g with m := mapDelete c.g.m k, cleanups := c.g.cleanups + 1 },
          c.ths.set i (.chExecSend r)⟩ := by
  simp [stepThread, hf, hi]

theorem step_chExecSend (c : Config V E) (i r : Nat)
    (hf : c.g.fault = false) (hi : c.ths[i]? = some (.chExecSend r)) :
    stepThread c i = ⟨c.g,
      c.ths.set i
        (.chDone ⟨(recGet c.g.recs r).val, (recGet c.g.recs r).err, false⟩)⟩
    := by
  simp [stepThread, hf, hi]

theorem step_chDone (c : Config V E) (i : Nat) (res : Result V E)
    (hf : c.g.fault = false) (hi : c.ths[i]? = some (.chDone res)) :
    stepThread c i = c := by
  simp [stepThread, hf, hi]

theorem step_forget_hit (c : Config V E) (i : Nat) (k : String) (r : Nat)
    (hf : c.g.fault = false) (hi : c.ths[i]? = some (.forgetStart k))
    (hm : mapLookup c.g.m k = some r) :
    stepThread c i
      = ⟨{ recDone c.g r with m := mapDelete c.g.m k },
          c.ths.set i .forgetDone⟩ := by
  simp [stepThread, hf, hi, hm]

theorem step_forget_miss (c : Config V E) (i : Nat) (k : String)
    (hf : c.g.fault = false) (hi : c.ths[i]? = some (.forgetStart k))
    (hm : mapLookup c.g.m k = none) :
    stepThread c i = ⟨c.g, c.ths.set i .forgetDone⟩ := by
  simp [stepThread, hf, hi, hm]

theorem step_forgetDone (c : Config V E) (i : Nat) (hf : c.g.fault = false)
    (hi : c.ths[i]? = some .forgetDone) : stepThread c i = c := by
  simp [stepThread, hf, hi]

/-- Replacing a non-executor goroutine's phase by another joiner phase
preserves the registered branch of the invariant. -/
theorem Inv2_set_joiner (k : String) (c : Config V E) (st : St)
    (v : Option V) (e : Option E) (iE : Nat) (tE : Phase V E)
    (hat : Inv2At k c st v e iE tE) (i : Nat) (hne : i ≠ iE)
    (ph : Phase V E) (hph : joinerOK st k v e ph) :
    Inv2At k ⟨c.g, c.ths.set i ph⟩ st v e iE tE := by
  obtain ⟨hiE, hex, hst, hj⟩ := hat
  refine ⟨?_, hex, hst, ?_⟩
  · rw [List.getElem?_set_ne hne]
    exact hiE
  · intro j hjne t hjt
    by_cases hji : j = i
    · subst hji
      rw [List.getElem?_set_self'] at hjt
      obtain ⟨u, _, ht⟩ := Option.map_eq_some'.mp hjt
      exact ht ▸ hph
    · rw [List.getElem?_set_ne (Ne.symm hji)] at hjt
      exact hj j hjne t hjt

/-- Advancing the executor goroutine preserves the registered branch,
provided the shared state moves to the matching stage. -/
theorem Inv2At_set_exec (k : String) (c : Config V E) (st st' : St)
    (v v' : Option V) (e e' : Option E) (iE : Nat) (tE : Phase V E)
    (hat : Inv2At k c st v e iE tE) (g' : GState V E) (ph : Phase V E)
    (hex : execOK st' k v' e' ph) (hst : stateOK st' k v' e' g')
    (hjk : ∀ t : Phase V E, joinerOK st k v e t → joinerOK st' k v' e' t) :
    Inv2At k ⟨g', c.ths.set iE ph⟩ st' v' e' iE ph := by
  obtain ⟨hiE, _, _, hj⟩ := hat
  refine ⟨?_, hex, hst, ?_⟩
  · rw [List.getElem?_set_self', hiE]
    rfl
  · intro j hjne t hjt
    rw [List.getElem?_set_ne (Ne.symm hjne)] at hjt
    exact hjk t (hj j hjne t hjt)

/-- Rebuilding a group state whose map field is rewritten through the lazy
allocation is the identity once the map is known to be allocated. -/
theorem gstate_m_eta (g : GState V E) (l : List (String × Nat))
    (hm : g.m = some l) : { g with m := some (g.m.getD []) } = g := by
  rcases g with ⟨m0, r0, f0, c0, ft0⟩
  obtain rfl : m0 = some l := hm
  rfl

/-- Before stage 4 the record is still registered under `k`. -/
theorem stateOK_m_of_ne_s4 (st : St) (k : String) (v : Option V)
    (e : Option E) (g : GState V E) (h : st ≠ .s4)
    (hst : stateOK st k v e g) : g.m = some [(k, 0)] := by
  cases st
  · exact hst.2.1
  · exact hst.2.1
  · exact hst.2.1
  · exact absurd rfl h

/-- The record's signal counter per stage: still 1 before stage 3, and the
whole record is `⟨v, e, 0, 1⟩` from stage 3 on. -/
theorem stateOK_rec_cases (st : St) (k : String) (v : Option V)
    (e : Option E) (g : GState V E) (hst : stateOK st k v e g) :
    ((recGet g.recs 0).wg = 1 ∧ (st = .s1 ∨ st = .s2)) ∨
      (recGet g.recs 0 = ⟨v, e, 0, 1⟩ ∧ (st = .s3 ∨ st = .s4)) := by
  cases st
  · exact Or.inl ⟨by rw [hst.1]; rfl, Or.inl rfl⟩
  · exact Or.inl ⟨by rw [hst.1]; rfl, Or.inr rfl⟩
  · exact Or.inr ⟨by rw [hst.1]; rfl, Or.inl rfl⟩
  · exact Or.inr ⟨by rw [hst.1]; rfl, Or.inr rfl⟩

/-- From stage 3 on the record is exactly `⟨v, e, 0, 1⟩`. -/
theorem stateOK_rec_of_s34 (st : St) (k : String) (v : Option V)
    (e : Option E) (g : GState V E) (h : st = .s3 ∨ st = .s4)
    (hst : stateOK st k v e g) : recGet g.recs 0 = ⟨v, e, 0, 1⟩ := by
  rcases h with rfl | rfl
  · rw [hst.1]; rfl
  · rw [hst.1]; rfl

/-- Joiners of stage 1 are joiners of stage 2 for any recorded result. -/
theorem joinerOK_s1_s2 (k : String) (v v' : Option V) (e e' : Option E)
    (t : Phase V E) (h : joinerOK .s1 k v e t) : joinerOK .s2 k v' e' t := by
  rcases h with ⟨_, hs⟩ | hw | ⟨h34, _⟩
  · exact Or.inl ⟨fun hh => St.noConfusion hh, hs⟩
  · exact Or.inr (Or.inl hw)
  · rcases h34 with h34 | h34 <;> exact St.noConfusion h34

/-- Joiners of stage 2 are joiners of stage 3. -/
theorem joinerOK_s2_s3 (k : String) (v : Option V) (e : Option E)
    (t : Phase V E) (h : joinerOK .s2 k v e t) : joinerOK .s3 k v e t := by
  rcases h with ⟨_, hs⟩ | hw | ⟨h34, _⟩
  · exact Or.inl ⟨fun hh => St.noConfusion hh, hs⟩
  · exact Or.inr (Or.inl hw)
  · rcases h34 with h34 | h34 <;> exact St.noConfusion h34

/-- One-step preservation of the coalescing invariant, under the schedule
condition that no call is newly issued after the removal has run. -/
theorem Inv2_step (k : String) (c : Config V E) (i : Nat)
    (h : Inv2 k c) (h' : noLateStart k (stepThread c i)) :
    Inv2 k (stepThread c i) := by
  obtain ⟨hf, hA | ⟨st, v, e, iE, tE, hat⟩⟩ := h
  · -- no call issued yet: only a registration can happen
    obtain ⟨hm, hrecs, hfn, hcl, hall⟩ := hA
    cases hi : c.ths[i]? with
    | none =>
      rw [step_eq_oob c i hf hi]
      exact ⟨hf, Or.inl ⟨hm, hrecs, hfn, hcl, hall⟩⟩
    | some t =>
      have hts := hall t (List.getElem?_mem hi)
      have hmk : mapLookup c.g.m k = none := by rw [hm]; rfl
      rcases c with ⟨⟨m0, recs0, fnc0, cl0, ft0⟩, ths0⟩
      obtain rfl : m0 = none := hm
      obtain rfl : recs0 = [] := hrecs
      obtain rfl : fnc0 = 0 := hfn
      obtain rfl : cl0 = 0 := hcl
      obtain rfl : ft0 = false := hf
      cases t
      case doStart k' fn =>
        have hk : k' = k := by simpa [isStart] using hts
        subst hk
        rw [step_doStart_reg _ i k' fn rfl hi hmk]
        refine ⟨rfl, Or.inr ⟨.s1, none, none, i, .doExec 0 k' fn,
          ?_, ⟨fn, Or.inl rfl⟩, ⟨rfl, rfl, rfl, rfl⟩, ?_⟩⟩
        · rw [List.getElem?_set_self', hi]
          rfl
        · intro j hjne t' hjt
          rw [List.getElem?_set_ne (Ne.symm hjne)] at hjt
          exact Or.inl ⟨fun hh => St.noConfusion hh,
            hall t' (List.getElem?_mem hjt)⟩
      case chStart k' fn =>
        have hk : k' = k := by simpa [isStart] using hts
        subst hk
        rw [step_chStart_reg _ i k' fn rfl hi hmk]
        refine ⟨rfl, Or.inr ⟨.s1, none, none, i, .chExec 0 k' fn,
          ?_, ⟨fn, Or.inr rfl⟩, ⟨rfl, rfl, rfl, rfl⟩, ?_⟩⟩
        · rw [List.getElem?_set_self', hi]
          rfl
        · intro j hjne t' hjt
          rw [List.getElem?_set_ne (Ne.symm hjne)] at hjt
          exact Or.inl ⟨fun hh => St.noConfusion hh,
            hall t' (List.getElem?_mem hjt)⟩
      all_goals simp [isStart] at hts
  · by_cases hieq : i = iE
    · -- the executor moves
      subst hieq
      obtain ⟨hiE, hex, hst, hj⟩ := hat
      cases st with
      | s1 =>
        obtain ⟨hrecs, hm, hfn, hcl⟩ := hst
        rcases c with ⟨⟨m0, recs0, fnc0, cl0, ft0⟩, ths0⟩
        obtain rfl : m0 = some [(k, 0)] := hm
        obtain rfl : recs0 = [⟨none, none, 1, 0⟩] := hrecs
        obtain rfl : fnc0 = 0 := hfn
        obtain rfl : cl0 = 0 := hcl
        obtain rfl : ft0 = false := hf
        obtain ⟨f, rfl | rfl⟩ := hex
        · rw [step_doExec _ i 0 k f rfl hiE]
          refine ⟨rfl, Or.inr ⟨.s2, f.1, f.2, i, .doSignal 0 k, ?_,
            Or.inl rfl, ⟨rfl, rfl, rfl, rfl⟩, ?_⟩⟩
          · rw [List.getElem?_set_self', hiE]
            rfl
          · intro j hjne t' hjt
            rw [List.getElem?_set_ne (Ne.symm hjne)] at hjt
            exact joinerOK_s1_s2 k v f.1 e f.2 t' (hj j hjne t' hjt)
        · rw [step_chExec _ i 0 k f rfl hiE]
          refine ⟨rfl, Or.inr ⟨.s2, f.1, f.2, i, .chExecSignal 0 k, ?_,
            Or.inr rfl, ⟨rfl, rfl, rfl, rfl⟩, ?_⟩⟩
          · rw [List.getElem?_set_self', hiE]
            rfl
          · intro j hjne t' hjt
            rw [List.getElem?_set_ne (Ne.symm hjne)] at hjt
            exact joinerOK_s1_s2 k v f.1 e f.2 t' (hj j hjne t' hjt)
      | s2 =>
        obtain ⟨hrecs, hm, hfn, hcl⟩ := hst
        rcases c with ⟨⟨m0, recs0, fnc0, cl0, ft0⟩, ths0⟩
        obtain rfl : m0 = some [(k, 0)] := hm
        obtain rfl : recs0 = [⟨v, e, 1, 0⟩] := hrecs
        obtain rfl : fnc0 = 1 := hfn
        obtain rfl : cl0 = 0 := hcl
        obtain rfl : ft0 = false := hf
        rcases hex with rfl | rfl
        · rw [step_doSignal _ i 0 k rfl hiE]
          refine ⟨rfl, Or.inr ⟨.s3, v, e, i, .doCleanup 0 k, ?_,
            Or.inl rfl, ⟨rfl, rfl, rfl, rfl⟩, ?_⟩⟩
          · rw [List.getElem?_set_self', hiE]
            rfl
          · intro j hjne t' hjt
            rw [List.getElem?_set_ne (Ne.symm hjne)] at hjt
            exact joinerOK_s2_s3 k v e t' (hj j hjne t' hjt)
        · rw [step_chExecSignal _ i 0 k rfl hiE]
          refine ⟨rfl, Or.inr ⟨.s3, v, e, i, .chExecCleanup 0 k, ?_,
            Or.inr rfl, ⟨rfl, rfl, rfl, rfl⟩, ?_⟩⟩
          · rw [List.getElem?_set_self', hiE]
            rfl
          · intro j hjne t' hjt
            rw [List.getElem?_set_ne (Ne.symm hjne)] at hjt
            exact joinerOK_s2_s3 k v e t' (hj j hjne t' hjt)
      | s3 =>
        obtain ⟨hrecs, hm, hfn, hcl⟩ := hst
        rcases c with ⟨⟨m0, recs0, fnc0, cl0, ft0⟩, ths0⟩
        obtain rfl : m0 = some [(k, 0)] := hm
        obtain rfl : recs0 = [⟨v, e, 0, 1⟩] := hrecs
        obtain rfl : fnc0 = 1 := hfn
        obtain rfl : cl0 = 0 := hcl
        obtain rfl : ft0 = false := hf
        rcases hex with rfl | rfl
        · have hstep := step_doCleanup
            (⟨⟨some [(k, 0)], [⟨v, e, 0, 1⟩], 1, 0, false⟩, ths0⟩ : Config V E)
            i 0 k rfl hiE
          rw [hstep] at h' ⊢
          have hmdel : mapDelete (some [(k, 0)]) k = some [] := by
            simp [mapDelete]
          refine ⟨rfl, Or.inr ⟨.s4, v, e, i, .doRet 0, ?_, Or.inl rfl,
            ⟨rfl, by simpa [stateOK] using hmdel, rfl, rfl⟩, ?_⟩⟩
          · rw [List.getElem?_set_self', hiE]
            rfl
          · intro j hjne t' hjt
            rw [List.getElem?_set_ne (Ne.symm hjne)] at hjt
            rcases hj j hjne t' hjt with ⟨_, hs⟩ | hw | ⟨_, hp⟩
            · have hmem : t' ∈ ths0.set i (Phase.doRet 0) :=
                List.getElem?_mem
                  (by rw [List.getElem?_set_ne (Ne.symm hjne)]; exact hjt)
              have hsf := h' (Nat.succ_pos 0) t' hmem
              rw [hsf] at hs
              simp at hs
            · exact Or.inr (Or.inl hw)
            · exact Or.inr (Or.inr ⟨Or.inr rfl, hp⟩)
        · have hstep := step_chExecCleanup
            (⟨⟨some [(k, 0)], [⟨v, e, 0, 1⟩], 1, 0, false⟩, ths0⟩ : Config V E)
            i 0 k rfl hiE
          rw [hstep] at h' ⊢
          have hmdel : mapDelete (some [(k, 0)]) k = some [] := by
            simp [mapDelete]
          refine ⟨rfl, Or.inr ⟨.s4, v, e, i, .chExecSend 0, ?_,
            Or.inr (Or.inl rfl),
            ⟨rfl, by simpa [stateOK] using hmdel, rfl, rfl⟩, ?_⟩⟩
          · rw [List.getElem?_set_self', hiE]
            rfl
          · intro j hjne t' hjt
            rw [List.getElem?_set_ne (Ne.symm hjne)] at hjt
            rcases hj j hjne t' hjt with ⟨_, hs⟩ | hw | ⟨_, hp⟩
            · have hmem : t' ∈ ths0.set i (Phase.chExecSend 0) :=
                List.getElem?_mem
                  (by rw [List.getElem?_set_ne (Ne.symm hjne)]; exact hjt)
              have hsf := h' (Nat.succ_pos 0) t' hmem
              rw [hsf] at hs
              simp at hs
            · exact Or.inr (Or.inl hw)
            · exact Or.inr (Or.inr ⟨Or.inr rfl, hp⟩)
      | s4 =>
        obtain ⟨hrecs, hm, hfn, hcl⟩ := hst
        rcases c with ⟨⟨m0, recs0, fnc0, cl0, ft0⟩, ths0⟩
        obtain rfl : m0 = some [] := hm
        obtain rfl : recs0 = [⟨v, e, 0, 1⟩] := hrecs
        obtain rfl : fnc0 = 1 := hfn
        obtain rfl : cl0 = 1 := hcl
        obtain rfl : ft0 = false := hf
        rcases hex with rfl | rfl | rfl | rfl
        · rw [step_doRet _ i 0 rfl hiE]
          refine ⟨rfl, Or.inr ⟨.s4, v, e, i, .retDone v e, ?_,
            Or.inr (Or.inr (Or.inl rfl)), ⟨rfl, rfl, rfl, rfl⟩, ?_⟩⟩
          · rw [List.getElem?_set_self', hiE]
            rfl
          · intro j hjne t' hjt
            rw [List.getElem?_set_ne (Ne.symm hjne)] at hjt
            exact hj j hjne t' hjt
        · rw [step_chExecSend _ i 0 rfl hiE]
          refine ⟨rfl, Or.inr ⟨.s4, v, e, i, .chDone ⟨v, e, false⟩, ?_,
            Or.inr (Or.inr (Or.inr rfl)), ⟨rfl, rfl, rfl, rfl⟩, ?_⟩⟩
          · rw [List.getElem?_set_self', hiE]
            rfl
          · intro j hjne t' hjt
            rw [List.getElem?_set_ne (Ne.symm hjne)] at hjt
            exact hj j hjne t' hjt
        · rw [step_retDone _ i v e rfl hiE]
          exact ⟨rfl, Or.inr ⟨.s4, v, e, i, .retDone v e, hiE,
            Or.inr (Or.inr (Or.inl rfl)), ⟨rfl, rfl, rfl, rfl⟩, hj⟩⟩
        · rw [step_chDone _ i ⟨v, e, false⟩ rfl hiE]
          exact ⟨rfl, Or.inr ⟨.s4, v, e, i, .chDone ⟨v, e, false⟩, hiE,
            Or.inr (Or.inr (Or.inr rfl)), ⟨rfl, rfl, rfl, rfl⟩, hj⟩⟩
    · -- a joiner moves
      obtain ⟨hiE, hex, hst, hj⟩ := hat
      cases hi : c.ths[i]? with
      | none =>
        rw [step_eq_oob c i hf hi]
        exact ⟨hf, Or.inr ⟨st, v, e, iE, tE, hiE, hex, hst, hj⟩⟩
      | some t =>
        have ht := hj i hieq t hi
        rcases ht with ⟨hs4, hs⟩ | hw | ⟨h34, hp⟩
        · -- an unissued caller joins record 0
          have hm := stateOK_m_of_ne_s4 st k v e c.g hs4 hst
          have hmk : mapLookup c.g.m k = some 0 := by
            rw [hm]
            simp [mapLookup, List.lookup]
          cases t <;> try (simp [isStart] at hs)
          · rename_i k' fn
            have hk : k' = k := by simpa [isStart] using hs
            subst hk
            rw [step_doStart_join c i k' fn 0 hf hi hmk,
              gstate_m_eta c.g [(k', 0)] hm]
            exact ⟨hf, Or.inr ⟨st, v, e, iE, tE,
              Inv2_set_joiner k' c st v e iE tE ⟨hiE, hex, hst, hj⟩ i hieq
                (.doWait 0) (Or.inr (Or.inl (Or.inl rfl)))⟩⟩
          · rename_i k' fn
            have hk : k' = k := by simpa [isStart] using hs
            subst hk
            rw [step_chStart_join c i k' fn 0 hf hi hmk,
              gstate_m_eta c.g [(k', 0)] hm]
            exact ⟨hf, Or.inr ⟨st, v, e, iE, tE,
              Inv2_set_joiner k' c st v e iE tE ⟨hiE, hex, hst, hj⟩ i hieq
                (.chJoinWait 0) (Or.inr (Or.inl (Or.inr rfl)))⟩⟩
        · -- a waiter polls the signal
          rcases stateOK_rec_cases st k v e c.g hst with ⟨hw1, _⟩ |
            ⟨hrec, h34'⟩
          · -- still blocked
            have hwb : ¬(recGet c.g.recs 0).wg ≤ 0 := by
              rw [hw1]
              decide
            rcases hw with rfl | rfl
            · rw [step_doWait_blocked c i 0 hf hi hwb]
              exact ⟨hf, Or.inr ⟨st, v, e, iE, tE, hiE, hex, hst, hj⟩⟩
            · rw [step_chJoinWait_blocked c i 0 hf hi hwb]
              exact ⟨hf, Or.inr ⟨st, v, e, iE, tE, hiE, hex, hst, hj⟩⟩
          · -- signal raised: the waiter wakes with the recorded result
            have hwp : (recGet c.g.recs 0).wg ≤ 0 := by
              rw [hrec]
            rcases hw with rfl | rfl
            · rw [step_doWait_pass c i 0 hf hi hwp, hrec]
              exact ⟨hf, Or.inr ⟨st, v, e, iE, tE,
                Inv2_set_joiner k c st v e iE tE ⟨hiE, hex, hst, hj⟩ i hieq
                  (.retDone v e) (Or.inr (Or.inr ⟨h34', Or.inl rfl⟩))⟩⟩
            · rw [step_chJoinWait_pass c i 0 hf hi hwp]
              exact ⟨hf, Or.inr ⟨st, v, e, iE, tE,
                Inv2_set_joiner k c st v e iE tE ⟨hiE, hex, hst, hj⟩ i hieq
                  (.chJoinSend 0)
                  (Or.inr (Or.inr ⟨h34', Or.inr (Or.inl rfl)⟩))⟩⟩
        · -- a woken waiter finishes
          rcases hp with rfl | rfl | rfl
          · rw [step_retDone c i v e hf hi]
            exact ⟨hf, Or.inr ⟨st, v, e, iE, tE, hiE, hex, hst, hj⟩⟩
          · have hrec := stateOK_rec_of_s34 st k v e c.g h34 hst
            rw [step_chJoinSend c i 0 hf hi, hrec]
            exact ⟨hf, Or.inr ⟨st, v, e, iE, tE,
              Inv2_set_joiner k c st v e iE tE ⟨hiE, hex, hst, hj⟩ i hieq
                (.chDone ⟨v, e, true⟩)
                (Or.inr (Or.inr ⟨h34, Or.inr (Or.inr rfl)⟩))⟩⟩
          · rw [step_chDone c i ⟨v, e, true⟩ hf hi]
            exact ⟨hf, Or.inr ⟨st, v, e, iE, tE, hiE, hex, hst, hj⟩⟩

/-- The coalescing invariant holds after every schedule whose prefixes all
meet the no-late-start condition, starting from a zero group whose
goroutines all issue calls for key `k`. -/
theorem Inv2_run (k : String) (ths0 : List (Phase V E))
    (h0 : ∀ t ∈ ths0, isStart k t = true) (s : List Nat)
    (hc : ∀ j, j ≤ s.length →
      noLateStart k (run (init ths0) (s.take j))) :
    Inv2 k (run (init ths0) s) := by
  have key : ∀ j, j ≤ s.length → Inv2 k (run (init ths0) (s.take j)) := by
    intro j
    induction j with
    | zero =>
      intro _
      exact ⟨rfl, Or.inl ⟨rfl, rfl, rfl, rfl, h0⟩⟩
    | succ n ih =>
      intro hn
      have hn' : n ≤ s.length := Nat.le_of_succ_le hn
      have hlt : n < s.length := hn
      have hrun : run (init ths0) (s.take (n + 1))
          = stepThread (run (init ths0) (s.take n)) (s.get ⟨n, hlt⟩) := by
        rw [List.take_succ, List.getElem?_eq_getElem hlt]
        rw [run, List.foldl_append]
        rfl
      rw [hrun]
      refine Inv2_step k _ _ (ih hn') ?_
      have hcc := hc (n + 1) hn
      rw [hrun] at hcc
      exact hcc
  have := key s.length (Nat.le_refl _)
  rwa [List.take_length] at this

/-- C1: with a zero group and any number of concurrent `Do` goroutines for
the same key (each with its own callable), under any interleaving in which
every call is issued before any of them completes its step-4 removal, once
all calls have returned, the unit-of-work callable has been invoked exactly
once in total and every call returned the identical `(value, error)` pair. -/
theorem do_coalesces_unique_execution (k : String)
    (fns : List (Option V × Option E)) (hne : fns ≠ []) (s : List Nat)
    (hc : ∀ j, j ≤ s.length →
      noLateStart k (run (init (fns.map (Phase.doStart k))) (s.take j)))
    (hall : ∀ t ∈ (run (init (fns.map (Phase.doStart k))) s).ths,
      isRetDone t = true) :
    (run (init (fns.map (Phase.doStart k))) s).g.fnCalls = 1 ∧
    ∃ (v : Option V) (e : Option E),
      ∀ t ∈ (run (init (fns.map (Phase.doStart k))) s).ths,
        t = .retDone v e := by
  have h0 : ∀ t ∈ fns.map (Phase.doStart k), isStart k t = true := by
    intro t ht
    obtain ⟨f, _, rfl⟩ := List.mem_map.mp ht
    simp [isStart]
  have hinv := Inv2_run k _ h0 s hc
  obtain ⟨hf, hA | ⟨st, v, e, iE, tE, hiE, hex, hst, hj⟩⟩ := hinv
  · exfalso
    obtain ⟨_, _, _, _, hall0⟩ := hA
    have hlen : (run (init (fns.map (Phase.doStart k))) s).ths.length
        = fns.length := by
      rw [run_ths_length]
      simp [init]
    have hpos : 0 < (run (init (fns.map (Phase.doStart k))) s).ths.length := by
      rw [hlen]
      exact List.length_pos.mpr hne
    obtain ⟨t, ht⟩ := List.exists_mem_of_length_pos hpos
    have h1 := hall0 t ht
    have h2 := hall t ht
    cases t <;> simp [isStart, isRetDone] at h1 h2
  · cases st
    case s1 =>
      obtain ⟨f, rfl | rfl⟩ := hex <;>
        · have := hall _ (List.getElem?_mem hiE)
          simp [isRetDone] at this
    case s2 =>
      rcases hex with rfl | rfl <;>
        · have := hall _ (List.getElem?_mem hiE)
          simp [isRetDone] at this
    case s3 =>
      rcases hex with rfl | rfl <;>
        · have := hall _ (List.getElem?_mem hiE)
          simp [isRetDone] at this
    case s4 =>
      rcases hex with rfl | rfl | rfl | rfl
      · have := hall _ (List.getElem?_mem hiE)
        simp [isRetDone] at this
      · have := hall _ (List.getElem?_mem hiE)
        simp [isRetDone] at this
      · refine ⟨hst.2.2.1, v, e, ?_⟩
        intro t ht
        obtain ⟨j, hj'⟩ := List.getElem?_of_mem ht
        by_cases hji : j = iE
        · subst hji
          rw [hj'] at hiE
          exact Option.some.inj hiE
        · rcases hj j hji t hj' with ⟨hs4, _⟩ | hw | ⟨_, hp⟩
          · exact absurd rfl hs4
          · rcases hw with rfl | rfl <;>
              · have := hall _ ht
                simp [isRetDone] at this
          · rcases hp with rfl | rfl | rfl
            · rfl
            · have := hall _ ht
              simp [isRetDone] at this
            · have := hall _ ht
              simp [isRetDone] at this
      · have := hall _ (List.getElem?_mem hiE)
        simp [isRetDone] at this

/-- C6: with a zero group and any number of concurrent `DoChan` goroutines
for the same key, under any interleaving in which every call is issued
before any completes its removal, once every private channel has been
resolved and closed, the callable ran exactly once, exactly one handle
(the initiator's) carries `Shared = false`, every other handle carries
`Shared = true`, and all handles carry the identical value and error. -/
theorem doChan_unique_initiator (k : String)
    (fns : List (Option V × Option E)) (hne : fns ≠ []) (s : List Nat)
    (hc : ∀ j, j ≤ s.length →
      noLateStart k (run (init (fns.map (Phase.chStart k))) (s.take j)))
    (hall : ∀ t ∈ (run (init (fns.map (Phase.chStart k))) s).ths,
      isChDone t = true) :
    (run (init (fns.map (Phase.chStart k))) s).g.fnCalls = 1 ∧
    ∃ (v : Option V) (e : Option E) (iE : Nat),
      (run (init (fns.map (Phase.chStart k))) s).ths[iE]?
          = some (.chDone ⟨v, e, false⟩) ∧
      ∀ j, j ≠ iE → ∀ t,
        (run (init (fns.map (Phase.chStart k))) s).ths[j]? = some t →
        t = .chDone ⟨v, e, true⟩ := by
  have h0 : ∀ t ∈ fns.map (Phase.chStart k), isStart k t = true := by
    intro t ht
    obtain ⟨f, _, rfl⟩ := List.mem_map.mp ht
    simp [isStart]
  have hinv := Inv2_run k _ h0 s hc
  obtain ⟨hf, hA | ⟨st, v, e, iE, tE, hiE, hex, hst, hj⟩⟩ := hinv
  · exfalso
    obtain ⟨_, _, _, _, hall0⟩ := hA
    have hlen : (run (init (fns.map (Phase.chStart k))) s).ths.length
        = fns.length := by
      rw [run_ths_length]
      simp [init]
    have hpos : 0 < (run (init (fns.map (Phase.chStart k))) s).ths.length
      := by
      rw [hlen]
      exact List.length_pos.mpr hne
    obtain ⟨t, ht⟩ := List.exists_mem_of_length_pos hpos
    have h1 := hall0 t ht
    have h2 := hall t ht
    cases t <;> simp [isStart, isChDone] at h1 h2
  · cases st
    case s1 =>
      obtain ⟨f, rfl | rfl⟩ := hex <;>
        · have := hall _ (List.getElem?_mem hiE)
          simp [isChDone] at this
    case s2 =>
      rcases hex with rfl | rfl <;>
        · have := hall _ (List.getElem?_mem hiE)
          simp [isChDone] at this
    case s3 =>
      rcases hex with rfl | rfl <;>
        · have := hall _ (List.getElem?_mem hiE)
          simp [isChDone] at this
    case s4 =>
      rcases hex with rfl | rfl | rfl | rfl
      · have := hall _ (List.getElem?_mem hiE)
        simp [isChDone] at this
      · have := hall _ (List.getElem?_mem hiE)
        simp [isChDone] at this
      · have := hall _ (List.getElem?_mem hiE)
        simp [isChDone] at this
      · refine ⟨hst.2.2.1, v, e, iE, hiE, ?_⟩
        intro j hji t hj'
        rcases hj j hji t hj' with ⟨hs4, _⟩ | hw | ⟨_, hp⟩
        · exact absurd rfl hs4
        · rcases hw with rfl | rfl <;>
            · have := hall _ (List.getElem?_mem hj')
              simp [isChDone] at this
        · rcases hp with rfl | rfl | rfl
          · have := hall _ (List.getElem?_mem hj')
            simp [isChDone] at this
          · have := hall _ (List.getElem?_mem hj')
            simp [isChDone] at this
          · rfl

/-- Witness for C1: three concurrent `Do("k", ·)` calls under a concrete
interleaving satisfy the hypotheses, and so return one shared result with
one execution. -/
theorem do_coalesces_unique_execution_witness :
    (run (init (([(some 5, none), (some 6, none), (some 7, none)]
        : List (Option Nat × Option Nat)).map (Phase.doStart "k")))
      [0, 1, 2, 0, 0, 1, 2, 0, 0]).g.fnCalls = 1 ∧
    ∃ (v : Option Nat) (e : Option Nat),
      ∀ t ∈ (run (init (([(some 5, none), (some 6, none), (some 7, none)]
          : List (Option Nat × Option Nat)).map (Phase.doStart "k")))
        [0, 1, 2, 0, 0, 1, 2, 0, 0]).ths, t = .retDone v e :=
  do_coalesces_unique_execution "k"
    [(some 5, none), (some 6, none), (some 7, none)] (by decide)
    [0, 1, 2, 0, 0, 1, 2, 0, 0] (by decide) (by decide)

/-- Witness for C6: three concurrent `DoChan("k", ·)` calls under a concrete
interleaving satisfy the hypotheses, and so resolve one `Shared = false`
handle and two `Shared = true` handles with the same result. -/
theorem doChan_unique_initiator_witness :
    (run (init (([(some 5, none), (some 6, none), (some 7, none)]
        : List (Option Nat × Option Nat)).map (Phase.chStart "k")))
      [0, 1, 2, 0, 0, 1, 2, 0, 0, 1, 2]).g.fnCalls = 1 ∧
    ∃ (v : Option Nat) (e : Option Nat) (iE : Nat),
      (run (init (([(some 5, none), (some 6, none), (some 7, none)]
          : List (Option Nat × Option Nat)).map (Phase.chStart "k")))
        [0, 1, 2, 0, 0, 1, 2, 0, 0, 1, 2]).ths[iE]?
          = some (.chDone ⟨v, e, false⟩) ∧
      ∀ j, j ≠ iE → ∀ t,
        (run (init (([(some 5, none), (some 6, none), (some 7, none)]
            : List (Option Nat × Option Nat)).map (Phase.chStart "k")))
          [0, 1, 2, 0, 0, 1, 2, 0, 0, 1, 2]).ths[j]? = some t →
        t = .chDone ⟨v, e, true⟩ :=
  doChan_unique_initiator "k"
    [(some 5, none), (some 6, none), (some 7, none)] (by decide)
    [0, 1, 2, 0, 0, 1, 2, 0, 0, 1, 2] (by decide) (by decide)

end Coalescing

end Singleflight

namespace Singleflight

section GeneralInvariant

variable {V E : Type}

theorem recGet_set_eq (l : List (Call V E)) (r : Nat) (x : Call V E)
    (h : r < l.length) : recGet (l.set r x) r = x := by
  simp [recGet, List.getD_eq_getElem?_getD, List.getElem?_set_eq_of_lt x h]

theorem recGet_set_ne (l : List (Call V E)) (r r' : Nat) (x : Call V E)
    (h : r ≠ r') : recGet (l.set r x) r' = recGet l r' := by
  simp [recGet, List.getD_eq_getElem?_getD, List.getElem?_set_ne h]

theorem recGet_append_lt (l l' : List (Call V E)) (r : Nat)
    (h : r < l.length) : recGet (l ++ l') r = recGet l r := by
  simp [recGet, List.getD_eq_getElem?_getD, List.getElem?_append_left h]

theorem recGet_append_len (l : List (Call V E)) (x : Call V E) :
    recGet (l ++ [x]) l.length = x := by
  simp [recGet, List.getD_eq_getElem?_getD, List.getElem?_concat_length]

theorem lookup_listInsert_self (l : List (String × Nat)) (k : String)
    (r : Nat) : List.lookup k (listInsert l k r) = some r := by
  simp [listInsert, List.lookup]

/-- Replacing a goroutine's phase by a phase with no record reference, when
its old phase had no active-executor reference, preserves the invariant on
an unchanged shared state. -/
theorem InvGOK_set_passive (k : String) (c : Config V E)
    (hok : InvGOK k c) (i : Nat) (t ph : Phase V E)
    (hi : c.ths[i]? = some t) (hact_old : activeExec t = none)
    (hkey : usesKey k ph) (href_new : recRef ph = none)
    (hact_new : activeExec ph = none) :
    InvGOK k ⟨c.g, c.ths.set i ph⟩ := by
  have hget : ∀ (j : Nat) (t' : Phase V E),
      (c.ths.set i ph)[j]? = some t' → j = i ∧ t' = ph ∨
        j ≠ i ∧ c.ths[j]? = some t' := by
    intro j t' hj
    by_cases hji : j = i
    · subst hji
      rw [List.getElem?_set_self'] at hj
      obtain ⟨u, _, hu⟩ := Option.map_eq_some'.mp hj
      exact Or.inl ⟨rfl, hu.symm⟩
    · rw [List.getElem?_set_ne (Ne.symm hji)] at hj
      exact Or.inr ⟨hji, hj⟩
  refine ⟨?_, hok.shape, ?_, ?_, ?_, ?_⟩
  · intro t' ht'
    obtain ⟨j, hj⟩ := List.getElem?_of_mem ht'
    rcases hget j t' hj with ⟨_, rfl⟩ | ⟨_, hj'⟩
    · exact hkey
    · exact hok.key t' (List.getElem?_mem hj')
  · intro j t' r hj hr
    rcases hget j t' hj with ⟨_, rfl⟩ | ⟨_, hj'⟩
    · rw [href_new] at hr
      exact Option.noConfusion hr
    · exact hok.bound j t' r hj' hr
  · intro j t' r st hj hr
    rcases hget j t' hj with ⟨_, rfl⟩ | ⟨_, hj'⟩
    · rw [hact_new] at hr
      exact Option.noConfusion hr
    · exact hok.state j t' r st hj' hr
  · intro j j' t' t'' r hj hj' hr hr'
    rcases hget j t' hj with ⟨rfl, rfl⟩ | ⟨hne, hj2⟩
    · rw [href_new] at hr
      exact Option.noConfusion hr
    · rcases hget j' t'' hj' with ⟨rfl, rfl⟩ | ⟨hne', hj2'⟩
      · rw [href_new] at hr'
        exact Option.noConfusion hr'
      · exact hok.uniq j j' t' t'' r hj2 hj2' hr hr'
  · intro r hr
    obtain ⟨j, t', st, hj, hact⟩ := hok.mapped r hr
    have hji : j ≠ i := by
      intro hh
      subst hh
      rw [hi] at hj
      obtain rfl := Option.some.inj hj
      rw [hact_old] at hact
      exact Option.noConfusion hact
    refine ⟨j, t', st, ?_, hact⟩
    rw [List.getElem?_set_ne (Ne.symm hji)]
    exact hj

theorem getElem?_set_cases (l : List (Phase V E)) (i j : Nat)
    (a b : Phase V E) (hj : (l.set i a)[j]? = some b) :
    (j = i ∧ b = a) ∨ (j ≠ i ∧ l[j]? = some b) := by
  by_cases hji : j = i
  · subst hji
    rw [List.getElem?_set_self'] at hj
    obtain ⟨u, _, hu⟩ := Option.map_eq_some'.mp hj
    exact Or.inl ⟨rfl, hu.symm⟩
  · rw [List.getElem?_set_ne (Ne.symm hji)] at hj
    exact Or.inr ⟨hji, hj⟩

theorem active_recRef (t : Phase V E) (r : Nat) (k' : String) (st : Nat)
    (h : activeExec t = some (r, k', st)) : recRef t = some r := by
  cases t <;> simp_all [activeExec, recRef]

/-- Registering a fresh record (the `none` branch of the first locked region
of `Do` or `DoChan`) preserves the invariant. -/
theorem InvGOK_register (k : String) (c : Config V E) (hok : InvGOK k c)
    (i : Nat) (t ph : Phase V E) (hi : c.ths[i]? = some t)
    (hL : mapLookup c.g.m k = none)
    (hph_key : usesKey k ph)
    (hph_ref : recRef ph = some c.g.recs.length)
    (hph_act : activeExec ph = some (c.g.recs.length, k, 1)) :
    InvGOK k ⟨{ c.g with
        m := some (listInsert (c.g.m.getD []) k c.g.recs.length),
        recs := c.g.recs ++ [⟨none, none, 1, 0⟩] },
      c.ths.set i ph⟩ := by
  have hl0 : c.g.m.getD [] = [] := by
    rcases hok.shape with hm | hm | ⟨r0, _, hm⟩
    · rw [hm]
      rfl
    · rw [hm]
      rfl
    · rw [hm] at hL
      simp [mapLookup, List.lookup] at hL
  have hilt : i < c.ths.length :=
    (List.getElem?_eq_some.mp hi).1
  have hmnew : ∀ r' : Nat,
      mapLookup (some (listInsert (c.g.m.getD []) k c.g.recs.length)) k
        = some r' → r' = c.g.recs.length := by
    intro r' hr'
    rw [hl0] at hr'
    simp [mapLookup, listInsert, List.lookup] at hr'
    exact hr'.symm
  refine ⟨?_, ?_, ?_, ?_, ?_, ?_⟩
  · intro t' ht'
    obtain ⟨j, hj⟩ := List.getElem?_of_mem ht'
    rcases getElem?_set_cases c.ths i j ph t' hj with ⟨_, rfl⟩ | ⟨_, hj'⟩
    · exact hph_key
    · exact hok.key t' (List.getElem?_mem hj')
  · refine Or.inr (Or.inr ⟨c.g.recs.length, ?_, ?_⟩)
    · simp
    · rw [hl0]
      rfl
  · intro j t' r hj hr
    rcases getElem?_set_cases c.ths i j ph t' hj with ⟨_, rfl⟩ | ⟨_, hj'⟩
    · rw [hph_ref] at hr
      obtain rfl := Option.some.inj hr
      simp
    · have := hok.bound j t' r hj' hr
      simp only [List.length_append, List.length_cons, List.length_nil]
      omega
  · intro j t' r st hj hact
    rcases getElem?_set_cases c.ths i j ph t' hj with ⟨_, rfl⟩ | ⟨hne, hj'⟩
    · rw [hph_act] at hact
      simp only [Option.some.injEq, Prod.mk.injEq] at hact
      obtain ⟨h1, -, h3⟩ := hact
      subst h1
      subst h3
      simp only [stageStateOK, if_neg (by omega : ¬(1 = 3))]
      refine Or.inl ⟨?_, ?_, ?_⟩
      · rw [hl0]
        simp [mapLookup, listInsert, List.lookup]
      · rw [recGet_append_len]
      · rw [recGet_append_len]
    · have hold := hok.state j t' r st hj' hact
      have hrlt : r < c.g.recs.length :=
        hok.bound j t' r hj' (active_recRef t' r k st hact)
      by_cases hst3 : st = 3
      · subst hst3
        exfalso
        rw [stageStateOK, if_pos rfl] at hold
        rw [hold.1] at hL
        exact Option.noConfusion hL
      · rw [stageStateOK, if_neg hst3] at hold ⊢
        rcases hold with ⟨hmm, _, _⟩ | ⟨_, hwg, hd⟩
        · exfalso
          rw [hmm] at hL
          exact Option.noConfusion hL
        · refine Or.inr ⟨?_, ?_, ?_⟩
          · intro hh
            have := hmnew r hh
            omega
          · rw [recGet_append_lt _ _ _ hrlt]
            exact hwg
          · rw [recGet_append_lt _ _ _ hrlt]
            exact hd
  · intro j j' t' t'' r hj hj' hr hr'
    rcases getElem?_set_cases c.ths i j ph t' hj with ⟨hji, hph⟩ |
      ⟨hne, hj2⟩
    · rcases getElem?_set_cases c.ths i j' ph t'' hj' with ⟨hji', _⟩ |
        ⟨hne', hj2'⟩
      · rw [hji, hji']
      · exfalso
        subst hph
        rw [hph_ref] at hr
        obtain rfl := Option.some.inj hr
        have := hok.bound j' t'' _ hj2' hr'
        omega
    · rcases getElem?_set_cases c.ths i j' ph t'' hj' with ⟨hji', hph'⟩ |
        ⟨hne', hj2'⟩
      · exfalso
        subst hph'
        rw [hph_ref] at hr'
        obtain rfl := Option.some.inj hr'
        have := hok.bound j t' _ hj2 hr
        omega
      · exact hok.uniq j j' t' t'' r hj2 hj2' hr hr'
  · intro r hr
    have := hmnew r hr
    subst this
    refine ⟨i, ph, 1, ?_, hph_act⟩
    exact List.getElem?_set_eq_of_lt ph hilt

/-- An executor advances its phase on its own record `r`, updating only that
record's contents (and ghost counters): the invariant is preserved as soon
as the new stage's state clause holds. -/
theorem InvGOK_advance (k : String) (c : Config V E) (hok : InvGOK k c)
    (i : Nat) (t ph : Phase V E) (r stOld stNew : Nat) (x : Call V E)
    (fnc' cl' : Nat) (ft' : Bool) (hi : c.ths[i]? = some t)
    (hact_t : activeExec t = some (r, k, stOld))
    (hph_key : usesKey k ph) (hph_ref : recRef ph = some r)
    (hph_act : activeExec ph = some (r, k, stNew))
    (hstNew : stageStateOK stNew k r
      ⟨c.g.m, c.g.recs.set r x, fnc', cl', ft'⟩) :
    InvGOK k ⟨⟨c.g.m, c.g.recs.set r x, fnc', cl', ft'⟩,
      c.ths.set i ph⟩ := by
  have href_t : recRef t = some r := active_recRef t r k stOld hact_t
  have hilt : i < c.ths.length := (List.getElem?_eq_some.mp hi).1
  have hrlt : r < c.g.recs.length := hok.bound i t r hi href_t
  have hrne : ∀ (j : Nat) (t' : Phase V E) (r' : Nat), j ≠ i →
      c.ths[j]? = some t' → recRef t' = some r' → r' ≠ r := by
    intro j t' r' hne hj hr' hrr
    subst hrr
    exact hne (hok.uniq j i t' t r' hj hi hr' href_t)
  refine ⟨?_, ?_, ?_, ?_, ?_, ?_⟩
  · intro t' ht'
    obtain ⟨j, hj⟩ := List.getElem?_of_mem ht'
    rcases getElem?_set_cases c.ths i j ph t' hj with ⟨_, hph⟩ | ⟨_, hj'⟩
    · rw [hph]
      exact hph_key
    · exact hok.key t' (List.getElem?_mem hj')
  · rcases hok.shape with hm | hm | ⟨r0, hr0, hm⟩
    · exact Or.inl hm
    · exact Or.inr (Or.inl hm)
    · exact Or.inr (Or.inr ⟨r0, by simpa using hr0, hm⟩)
  · intro j t' r' hj hr'
    rcases getElem?_set_cases c.ths i j ph t' hj with ⟨_, hph⟩ | ⟨_, hj'⟩
    · subst hph
      rw [hph_ref] at hr'
      obtain rfl := Option.some.inj hr'
      simpa using hrlt
    · simpa using hok.bound j t' r' hj' hr'
  · intro j t' r' st' hj hact'
    rcases getElem?_set_cases c.ths i j ph t' hj with ⟨_, hph⟩ | ⟨hne, hj'⟩
    · subst hph
      rw [hph_act] at hact'
      simp only [Option.some.injEq, Prod.mk.injEq] at hact'
      obtain ⟨h1, -, h3⟩ := hact'
      subst h1
      subst h3
      exact hstNew
    · have hold := hok.state j t' r' st' hj' hact'
      have hr'ne : r' ≠ r :=
        hrne j t' r' hne hj' (active_recRef t' r' k st' hact')
      by_cases hst3 : st' = 3
      · subst hst3
        rw [stageStateOK, if_pos rfl] at hold ⊢
        rw [recGet_set_ne _ _ _ _ (Ne.symm hr'ne)]
        exact hold
      · rw [stageStateOK, if_neg hst3] at hold ⊢
        rw [recGet_set_ne _ _ _ _ (Ne.symm hr'ne)]
        exact hold
  · intro j j' t' t'' r' hj hj' hr hr'
    rcases getElem?_set_cases c.ths i j ph t' hj with ⟨hji, hph⟩ |
      ⟨hne, hj2⟩
    · rcases getElem?_set_cases c.ths i j' ph t'' hj' with ⟨hji', _⟩ |
        ⟨hne', hj2'⟩
      · rw [hji, hji']
      · exfalso
        subst hph
        rw [hph_ref] at hr
        obtain rfl : r = r' := Option.some.inj hr
        exact hrne j' t'' r hne' hj2' hr' rfl
    · rcases getElem?_set_cases c.ths i j' ph t'' hj' with ⟨hji', hph'⟩ |
        ⟨hne', hj2'⟩
      · exfalso
        subst hph'
        rw [hph_ref] at hr'
        obtain rfl : r = r' := Option.some.inj hr'
        exact hrne j t' r hne hj2 hr rfl
      · exact hok.uniq j j' t' t'' r' hj2 hj2' hr hr'
  · intro r' hr'
    obtain ⟨j, t', st', hj, hact'⟩ := hok.mapped r' hr'
    by_cases hji : j = i
    · have ht' : t' = t := by
        rw [hji, hi] at hj
        exact (Option.some.inj hj).symm
      subst ht'
      rw [hact_t] at hact'
      simp only [Option.some.injEq, Prod.mk.injEq] at hact'
      obtain ⟨h1, -, -⟩ := hact'
      obtain rfl : r = r' := h1
      exact ⟨i, ph, stNew, List.getElem?_set_eq_of_lt ph hilt, hph_act⟩
    · exact ⟨j, t', st', by
        rw [List.getElem?_set_ne (Ne.symm hji)]
        exact hj, hact'⟩

/-- The executor's step-4 removal (`delete(g.m, key)`) preserves the
invariant: by stage 3 the registered record is its own, so the map becomes
empty and every other executor is already in the unregistered variant. -/
theorem InvGOK_cleanup (k : String) (c : Config V E) (hok : InvGOK k c)
    (i : Nat) (t ph : Phase V E) (r : Nat) (fnc' cl' : Nat) (ft' : Bool)
    (hi : c.ths[i]? = some t)
    (hact_t : activeExec t = some (r, k, 3))
    (hph_key : usesKey k ph) (hph_ref : recRef ph = some r)
    (hph_act : activeExec ph = none) :
    InvGOK k ⟨⟨mapDelete c.g.m k, c.g.recs, fnc', cl', ft'⟩,
      c.ths.set i ph⟩ := by
  have href_t : recRef t = some r := active_recRef t r k 3 hact_t
  have hrlt : r < c.g.recs.length := hok.bound i t r hi href_t
  have hold3 := hok.state i t r 3 hi hact_t
  rw [stageStateOK, if_pos rfl] at hold3
  obtain ⟨hL, -, -⟩ := hold3
  have hm : c.g.m = some [(k, r)] := by
    rcases hok.shape with hm | hm | ⟨r0, _, hm⟩
    · rw [hm] at hL
      exact Option.noConfusion hL
    · rw [hm] at hL
      simp [mapLookup, List.lookup] at hL
    · rw [hm] at hL
      simp only [mapLookup, List.lookup] at hL
      simp at hL
      rw [hm, hL]
  have hdel : mapDelete c.g.m k = some [] := by
    rw [hm]
    simp [mapDelete]
  have hdelL : mapLookup (mapDelete c.g.m k) k = none := by
    rw [hdel]
    rfl
  have hrne : ∀ (j : Nat) (t' : Phase V E) (r' : Nat), j ≠ i →
      c.ths[j]? = some t' → recRef t' = some r' → r' ≠ r := by
    intro j t' r' hne hj hr' hrr
    subst hrr
    exact hne (hok.uniq j i t' t r' hj hi hr' href_t)
  refine ⟨?_, ?_, ?_, ?_, ?_, ?_⟩
  · intro t' ht'
    obtain ⟨j, hj⟩ := List.getElem?_of_mem ht'
    rcases getElem?_set_cases c.ths i j ph t' hj with ⟨_, hph⟩ | ⟨_, hj'⟩
    · rw [hph]
      exact hph_key
    · exact hok.key t' (List.getElem?_mem hj')
  · rw [hdel]
    exact Or.inr (Or.inl rfl)
  · intro j t' r' hj hr'
    rcases getElem?_set_cases c.ths i j ph t' hj with ⟨_, hph⟩ | ⟨_, hj'⟩
    · subst hph
      rw [hph_ref] at hr'
      obtain rfl : r = r' := Option.some.inj hr'
      exact hrlt
    · exact hok.bound j t' r' hj' hr'
  · intro j t' r' st' hj hact'
    rcases getElem?_set_cases c.ths i j ph t' hj with ⟨_, hph⟩ | ⟨hne, hj'⟩
    · subst hph
      rw [hph_act] at hact'
      exact Option.noConfusion hact'
    · have hold := hok.state j t' r' st' hj' hact'
      have hr'ne : r' ≠ r :=
        hrne j t' r' hne hj' (active_recRef t' r' k st' hact')
      by_cases hst3 : st' = 3
      · subst hst3
        exfalso
        rw [stageStateOK, if_pos rfl] at hold
        rw [hold.1] at hL
        exact hr'ne (Option.some.inj hL)
      · rw [stageStateOK, if_neg hst3] at hold ⊢
        rcases hold with ⟨hmm, -, -⟩ | ⟨-, hwg, hd⟩
        · exfalso
          rw [hmm] at hL
          exact hr'ne (Option.some.inj hL)
        · exact Or.inr ⟨by rw [hdelL]; exact fun h => Option.noConfusion h,
            hwg, hd⟩
  · intro j j' t' t'' r' hj hj' hr hr'
    rcases getElem?_set_cases c.ths i j ph t' hj with ⟨hji, hph⟩ |
      ⟨hne, hj2⟩
    · rcases getElem?_set_cases c.ths i j' ph t'' hj' with ⟨hji', _⟩ |
        ⟨hne', hj2'⟩
      · rw [hji, hji']
      · exfalso
        subst hph
        rw [hph_ref] at hr
        obtain rfl : r = r' := Option.some.inj hr
        exact hrne j' t'' r hne' hj2' hr' rfl
    · rcases getElem?_set_cases c.ths i j' ph t'' hj' with ⟨hji', hph'⟩ |
        ⟨hne', hj2'⟩
      · exfalso
        subst hph'
        rw [hph_ref] at hr'
        obtain rfl : r = r' := Option.some.inj hr'
        exact hrne j t' r hne hj2 hr rfl
      · exact hok.uniq j j' t' t'' r' hj2 hj2' hr hr'
  · intro r' hr'
    rw [hdelL] at hr'
    exact Option.noConfusion hr'

/-- A `Forget` that finds record `r` in flight with its signal still pending
(its executor is before `wg.Done()`): the record is unregistered and its
signal raised once; the executor of `r` moves to the unregistered variant. -/
theorem InvGOK_forget (k : String) (c : Config V E) (hok : InvGOK k c)
    (i : Nat) (r : Nat) (x : Call V E) (fnc' cl' : Nat) (ft' : Bool)
    (hi : c.ths[i]? = some (.forgetStart k))
    (hL : mapLookup c.g.m k = some r)
    (i0 : Nat) (t0 : Phase V E) (st0 : Nat)
    (hi0 : c.ths[i0]? = some t0)
    (hact0 : activeExec t0 = some (r, k, st0)) (hst0 : st0 ≠ 3)
    (hx_wg : x.wg = 0) (hx_dones : x.dones = 1) :
    InvGOK k ⟨⟨mapDelete c.g.m k, c.g.recs.set r x, fnc', cl', ft'⟩,
      c.ths.set i .forgetDone⟩ := by
  have href0 : recRef t0 = some r := active_recRef t0 r k st0 hact0
  have hi0i : i0 ≠ i := by
    intro hh
    rw [hh, hi] at hi0
    obtain rfl := Option.some.inj hi0
    exact Option.noConfusion hact0
  have hm : c.g.m = some [(k, r)] := by
    rcases hok.shape with hm | hm | ⟨r0, _, hm⟩
    · rw [hm] at hL
      exact Option.noConfusion hL
    · rw [hm] at hL
      simp [mapLookup, List.lookup] at hL
    · rw [hm] at hL
      simp only [mapLookup, List.lookup] at hL
      simp at hL
      rw [hm, hL]
  have hdel : mapDelete c.g.m k = some [] := by
    rw [hm]
    simp [mapDelete]
  have hdelL : mapLookup (mapDelete c.g.m k) k = none := by
    rw [hdel]
    rfl
  have hrne : ∀ (j : Nat) (t' : Phase V E) (r' : Nat), j ≠ i0 →
      c.ths[j]? = some t' → recRef t' = some r' → r' ≠ r := by
    intro j t' r' hne hj hr' hrr
    subst hrr
    exact hne (hok.uniq j i0 t' t0 r' hj hi0 hr' href0)
  refine ⟨?_, ?_, ?_, ?_, ?_, ?_⟩
  · intro t' ht'
    obtain ⟨j, hj⟩ := List.getElem?_of_mem ht'
    rcases getElem?_set_cases c.ths i j .forgetDone t' hj with ⟨_, hph⟩ |
      ⟨_, hj'⟩
    · rw [hph]
      trivial
    · exact hok.key t' (List.getElem?_mem hj')
  · rw [hdel]
    exact Or.inr (Or.inl rfl)
  · intro j t' r' hj hr'
    rcases getElem?_set_cases c.ths i j .forgetDone t' hj with ⟨_, hph⟩ |
      ⟨_, hj'⟩
    · subst hph
      exact Option.noConfusion hr'
    · simpa using hok.bound j t' r' hj' hr'
  · intro j t' r' st' hj hact'
    rcases getElem?_set_cases c.ths i j .forgetDone t' hj with ⟨_, hph⟩ |
      ⟨hne, hj'⟩
    · subst hph
      exact Option.noConfusion hact'
    · by_cases hj0 : j = i0
      · have ht' : t' = t0 := by
          rw [hj0, hi0] at hj'
          exact (Option.some.inj hj').symm
        rw [ht', hact0] at hact'
        simp only [Option.some.injEq, Prod.mk.injEq] at hact'
        obtain ⟨h1, -, h3⟩ := hact'
        obtain rfl : r = r' := h1
        obtain rfl : st0 = st' := h3
        have hnone : mapLookup (mapDelete c.g.m k) k ≠ some r := by
          rw [hdelL]
          exact fun h => Option.noConfusion h
        rw [stageStateOK, if_neg hst0]
        refine Or.inr ⟨hnone, ?_, ?_⟩
        · rw [recGet_set_eq _ _ _ (hok.bound i0 t0 r hi0 href0)]
          exact hx_wg
        · rw [recGet_set_eq _ _ _ (hok.bound i0 t0 r hi0 href0)]
          exact hx_dones
      · have hold := hok.state j t' r' st' hj' hact'
        have hr'ne : r' ≠ r :=
          hrne j t' r' hj0 hj' (active_recRef t' r' k st' hact')
        by_cases hst3 : st' = 3
        · subst hst3
          exfalso
          rw [stageStateOK, if_pos rfl] at hold
          rw [hold.1] at hL
          exact hr'ne (Option.some.inj hL)
        · rw [stageStateOK, if_neg hst3] at hold ⊢
          rcases hold with ⟨hmm, -, -⟩ | ⟨-, hwg, hd⟩
          · exfalso
            rw [hmm] at hL
            exact hr'ne (Option.some.inj hL)
          · have hnone : mapLookup (mapDelete c.g.m k) k ≠ some r' := by
              rw [hdelL]
              exact fun h => Option.noConfusion h
            refine Or.inr ⟨hnone, ?_, ?_⟩
            · rw [recGet_set_ne _ _ _ _ (Ne.symm hr'ne)]
              exact hwg
            · rw [recGet_set_ne _ _ _ _ (Ne.symm hr'ne)]
              exact hd
  · intro j j' t' t'' r' hj hj' hr hr'
    rcases getElem?_set_cases c.ths i j .forgetDone t' hj with ⟨hji, hph⟩ |
      ⟨hne, hj2⟩
    · exfalso
      subst hph
      exact Option.noConfusion hr
    · rcases getElem?_set_cases c.ths i j' .forgetDone t'' hj' with
        ⟨hji', hph'⟩ | ⟨hne', hj2'⟩
      · exfalso
        subst hph'
        exact Option.noConfusion hr'
      · exact hok.uniq j j' t' t'' r' hj2 hj2' hr hr'
  · intro r' hr'
    rw [hdelL] at hr'
    exact Option.noConfusion hr'

theorem recDone_eq (g : GState V E) (r : Nat) :
    recDone g r = ⟨g.m,
      g.recs.set r
        { recGet g.recs r with
          wg := (recGet g.recs r).wg - 1,
          dones := (recGet g.recs r).dones + 1 },
      g.fnCalls, g.cleanups,
      g.fault || decide ((recGet g.recs r).wg - 1 < 0)⟩ := rfl

/-- One-step preservation of the general safety invariant, for any mix of
`Do`, `DoChan` and `Forget` goroutines on the single key `k`. -/
theorem InvG_step (k : String) (c : Config V E) (i : Nat) (h : InvG k c) :
    InvG k (stepThread c i) := by
  rcases h with hft | hok
  · rw [step_eq_of_fault c i hft]
    exact Or.inl hft
  cases hf : c.g.fault with
  | true =>
    rw [step_eq_of_fault c i hf]
    exact Or.inl hf
  | false =>
  cases hi : c.ths[i]? with
  | none =>
    rw [step_eq_oob c i hf hi]
    exact Or.inr hok
  | some t =>
    have htk := hok.key t (List.getElem?_mem hi)
    cases t with
    | doStart k' fn =>
      obtain rfl : k' = k := htk
      cases hL : mapLookup c.g.m k' with
      | some r =>
        obtain ⟨l, hm⟩ : ∃ l, c.g.m = some l := by
          cases hmm : c.g.m with
          | none =>
            rw [hmm] at hL
            exact Option.noConfusion hL
          | some l => exact ⟨l, rfl⟩
        rw [step_doStart_join c i k' fn r hf hi hL, gstate_m_eta c.g l hm]
        exact Or.inr (InvGOK_set_passive k' c hok i _ _ hi rfl trivial rfl
          rfl)
      | none =>
        rw [step_doStart_reg c i k' fn hf hi hL]
        exact Or.inr (InvGOK_register k' c hok i _ _ hi hL rfl rfl rfl)
    | doWait r =>
      by_cases hw : (recGet c.g.recs r).wg ≤ 0
      · rw [step_doWait_pass c i r hf hi hw]
        exact Or.inr (InvGOK_set_passive k c hok i _ _ hi rfl trivial rfl
          rfl)
      · rw [step_doWait_blocked c i r hf hi hw]
        exact Or.inr hok
    | doExec r k' fn =>
      obtain rfl : k' = k := htk
      rw [step_doExec c i r k' fn hf hi]
      have hrlt : r < c.g.recs.length := hok.bound i _ r hi rfl
      refine Or.inr (InvGOK_advance k' c hok i _ _ r 1 2 _ _ _ _ hi rfl rfl
        rfl rfl ?_)
      have hold := hok.state i _ r 1 hi rfl
      rw [stageStateOK, if_neg (by omega : ¬(1 = 3))] at hold
      rw [stageStateOK, if_neg (by omega : ¬(2 = 3))]
      rw [recGet_set_eq _ _ _ hrlt]
      rcases hold with ⟨h1, h2, h3⟩ | ⟨h1, h2, h3⟩
      · exact Or.inl ⟨h1, h2, h3⟩
      · exact Or.inr ⟨h1, h2, h3⟩
    | doSignal r k' =>
      obtain rfl : k' = k := htk
      rw [step_doSignal c i r k' hf hi]
      have hrlt : r < c.g.recs.length := hok.bound i _ r hi rfl
      have hold := hok.state i _ r 2 hi rfl
      rw [stageStateOK, if_neg (by omega : ¬(2 = 3))] at hold
      rcases hold with ⟨h1, h2, h3⟩ | ⟨h1, h2, h3⟩
      · rw [recDone_eq]
        refine Or.inr (InvGOK_advance k' c hok i (.doSignal r k')
          (.doCleanup r k') r 2 3
          { recGet c.g.recs r with
            wg := (recGet c.g.recs r).wg - 1,
            dones := (recGet c.g.recs r).dones + 1 }
          c.g.fnCalls c.g.cleanups
          (c.g.fault || decide ((recGet c.g.recs r).wg - 1 < 0))
          hi rfl rfl rfl rfl ?_)
        rw [stageStateOK, if_pos rfl]
        refine ⟨h1, ?_, ?_⟩
        · rw [recGet_set_eq _ _ _ hrlt]
          show (recGet c.g.recs r).wg - 1 = 0
          rw [h2]
          rfl
        · rw [recGet_set_eq _ _ _ hrlt]
          show (recGet c.g.recs r).dones + 1 = 1
          rw [h3]
      · apply Or.inl
        show (recDone c.g r).fault = true
        simp [recDone, h2]
    | doCleanup r k' =>
      obtain rfl : k' = k := htk
      rw [step_doCleanup c i r k' hf hi]
      exact Or.inr (InvGOK_cleanup k' c hok i _ _ r _ _ _ hi rfl trivial
        rfl rfl)
    | doRet r =>
      rw [step_doRet c i r hf hi]
      exact Or.inr (InvGOK_set_passive k c hok i _ _ hi rfl trivial rfl rfl)
    | retDone v e =>
      rw [step_retDone c i v e hf hi]
      exact Or.inr hok
    | chStart k' fn =>
      obtain rfl : k' = k := htk
      cases hL : mapLookup c.g.m k' with
      | some r =>
        obtain ⟨l, hm⟩ : ∃ l, c.g.m = some l := by
          cases hmm : c.g.m with
          | none =>
            rw [hmm] at hL
            exact Option.noConfusion hL
          | some l => exact ⟨l, rfl⟩
        rw [step_chStart_join c i k' fn r hf hi hL, gstate_m_eta c.g l hm]
        exact Or.inr (InvGOK_set_passive k' c hok i _ _ hi rfl trivial rfl
          rfl)
      | none =>
        rw [step_chStart_reg c i k' fn hf hi hL]
        exact Or.inr (InvGOK_register k' c hok i _ _ hi hL rfl rfl rfl)
    | chJoinWait r =>
      by_cases hw : (recGet c.g.recs r).wg ≤ 0
      · rw [step_chJoinWait_pass c i r hf hi hw]
        exact Or.inr (InvGOK_set_passive k c hok i _ _ hi rfl trivial rfl
          rfl)
      · rw [step_chJoinWait_blocked c i r hf hi hw]
        exact Or.inr hok
    | chJoinSend r =>
      rw [step_chJoinSend c i r hf hi]
      exact Or.inr (InvGOK_set_passive k c hok i _ _ hi rfl trivial rfl rfl)
    | chExec r k' fn =>
      obtain rfl : k' = k := htk
      rw [step_chExec c i r k' fn hf hi]
      have hrlt : r < c.g.recs.length := hok.bound i _ r hi rfl
      refine Or.inr (InvGOK_advance k' c hok i _ _ r 1 2 _ _ _ _ hi rfl rfl
        rfl rfl ?_)
      have hold := hok.state i _ r 1 hi rfl
      rw [stageStateOK, if_neg (by omega : ¬(1 = 3))] at hold
      rw [stageStateOK, if_neg (by omega : ¬(2 = 3))]
      rw [recGet_set_eq _ _ _ hrlt]
      rcases hold with ⟨h1, h2, h3⟩ | ⟨h1, h2, h3⟩
      · exact Or.inl ⟨h1, h2, h3⟩
      · exact Or.inr ⟨h1, h2, h3⟩
    | chExecSignal r k' =>
      obtain rfl : k' = k := htk
      rw [step_chExecSignal c i r k' hf hi]
      have hrlt : r < c.g.recs.length := hok.bound i _ r hi rfl
      have hold := hok.state i _ r 2 hi rfl
      rw [stageStateOK, if_neg (by omega : ¬(2 = 3))] at hold
      rcases hold with ⟨h1, h2, h3⟩ | ⟨h1, h2, h3⟩
      · rw [recDone_eq]
        refine Or.inr (InvGOK_advance k' c hok i (.chExecSignal r k')
          (.chExecCleanup r k') r 2 3
          { recGet c.g.recs r with
            wg := (recGet c.g.recs r).wg - 1,
            dones := (recGet c.g.recs r).dones + 1 }
          c.g.fnCalls c.g.cleanups
          (c.g.fault || decide ((recGet c.g.recs r).wg - 1 < 0))
          hi rfl rfl rfl rfl ?_)
        rw [stageStateOK, if_pos rfl]
        refine ⟨h1, ?_, ?_⟩
        · rw [recGet_set_eq _ _ _ hrlt]
          show (recGet c.g.recs r).wg - 1 = 0
          rw [h2]
          rfl
        · rw [recGet_set_eq _ _ _ hrlt]
          show (recGet c.g.recs r).dones + 1 = 1
          rw [h3]
      · apply Or.inl
        show (recDone c.g r).fault = true
        simp [recDone, h2]
    | chExecCleanup r k' =>
      obtain rfl : k' = k := htk
      rw [step_chExecCleanup c i r k' hf hi]
      exact Or.inr (InvGOK_cleanup k' c hok i _ _ r _ _ _ hi rfl trivial
        rfl rfl)
    | chExecSend r =>
      rw [step_chExecSend c i r hf hi]
      exact Or.inr (InvGOK_set_passive k c hok i _ _ hi rfl trivial rfl rfl)
    | chDone res =>
      rw [step_chDone c i res hf hi]
      exact Or.inr hok
    | forgetStart k' =>
      obtain rfl : k' = k := htk
      cases hL : mapLookup c.g.m k' with
      | none =>
        rw [step_forget_miss c i k' hf hi hL]
        exact Or.inr (InvGOK_set_passive k' c hok i _ _ hi rfl trivial rfl
          rfl)
      | some r =>
        obtain ⟨i0, t0, st0, hi0, hact0⟩ := hok.mapped r hL
        by_cases hst03 : st0 = 3
        · subst hst03
          have hold := hok.state i0 t0 r 3 hi0 hact0
          rw [stageStateOK, if_pos rfl] at hold
          rw [step_forget_hit c i k' r hf hi hL]
          apply Or.inl
          show ({ recDone c.g r with m := mapDelete c.g.m k' }).fault = true
          simp [recDone, hold.2.1]
        · have hold := hok.state i0 t0 r st0 hi0 hact0
          rw [stageStateOK, if_neg hst03] at hold
          rcases hold with ⟨h1, h2, h3⟩ | ⟨h1, h2, h3⟩
          · rw [step_forget_hit c i k' r hf hi hL, recDone_eq]
            refine Or.inr (InvGOK_forget k' c hok i r _ _ _ _ hi hL i0 t0
              st0 hi0 hact0 hst03 ?_ ?_)
            · show (recGet c.g.recs r).wg - 1 = 0
              rw [h2]
              rfl
            · show (recGet c.g.recs r).dones + 1 = 1
              rw [h3]
          · exact absurd hL h1
    | forgetDone =>
      rw [step_forgetDone c i hf hi]
      exact Or.inr hok

/-- The general invariant holds along every schedule. -/
theorem InvG_run_of (k : String) (c : Config V E) (h : InvG k c)
    (s : List Nat) : InvG k (run c s) := by
  induction s generalizing c with
  | nil => exact h
  | cons a s ih =>
    rw [run, List.foldl_cons]
    exact ih _ (InvG_step k c a h)

/-- A zero group with goroutines about to run `Do`, `DoChan` or `Forget`
for key `k` satisfies the general invariant. -/
theorem InvG_init (k : String) (ths0 : List (Phase V E))
    (h0 : ∀ t ∈ ths0, isInit k t = true) : InvG k (init ths0) := by
  refine Or.inr ⟨?_, Or.inl rfl, ?_, ?_, ?_, ?_⟩
  · intro t ht
    have := h0 t ht
    cases t <;> simp_all [isInit, usesKey]
  · intro i t r hi hr
    have := h0 t (List.getElem?_mem hi)
    cases t <;> simp_all [isInit, recRef]
  · intro i t r st hi hact
    have := h0 t (List.getElem?_mem hi)
    cases t <;> simp_all [isInit, activeExec]
  · intro i j t t' r hi hj hr hr'
    have := h0 t (List.getElem?_mem hi)
    cases t <;> simp_all [isInit, recRef]
  · intro r hr
    exact Option.noConfusion hr

/-- C2: in every panic-free reachable configuration of a machine whose
goroutines each run `Do`, `DoChan` or `Forget` on key `k` (a zero group,
any interleaving), a goroutine about to execute its step-4
`delete(g.m, key)` always finds exactly its own, just-completed record
(signaled exactly once) registered under the key, and the delete removes
precisely that record.  In particular step 4 never removes any record other
than the one just completed - a state with a different record under the key
at that point is unreachable without a prior `WaitGroup` fault (a Go panic,
which aborts the program before the delete can run), so the source's
unconditional `delete` agrees with the spec's conditional description on
every surviving execution. -/
theorem cleanup_removes_only_completed_record (k : String)
    (ths0 : List (Phase V E)) (h0 : ∀ t ∈ ths0, isInit k t = true)
    (s : List Nat) (i r : Nat)
    (hnf : (run (init ths0) s).g.fault = false)
    (hph : (run (init ths0) s).ths[i]? = some (.doCleanup r k) ∨
      (run (init ths0) s).ths[i]? = some (.chExecCleanup r k)) :
    mapLookup (run (init ths0) s).g.m k = some r ∧
    (recGet (run (init ths0) s).g.recs r).dones = 1 ∧
    (∀ r', mapLookup (run (init ths0) s).g.m k = some r' → r' = r) ∧
    mapLookup (stepThread (run (init ths0) s) i).g.m k = none := by
  have hinv := InvG_run_of k (init ths0) (InvG_init k ths0 h0) s
  rcases hinv with hft | hok
  · rw [hnf] at hft
    exact Bool.noConfusion hft
  have hmdel : ∀ hL : mapLookup (run (init ths0) s).g.m k = some r,
      mapLookup (mapDelete (run (init ths0) s).g.m k) k = none := by
    intro hL
    rcases hok.shape with hm | hm | ⟨r0, _, hm⟩
    · rw [hm] at hL
      exact Option.noConfusion hL
    · rw [hm] at hL
      simp [mapLookup, List.lookup] at hL
    · rw [hm]
      simp [mapDelete, mapLookup, List.lookup, List.eraseP]
  rcases hph with hph | hph
  · have h3 := hok.state i _ r 3 hph rfl
    rw [stageStateOK, if_pos rfl] at h3
    refine ⟨h3.1, h3.2.2, fun r' hr' => ?_, ?_⟩
    · rw [h3.1] at hr'
      exact Option.some.inj hr'.symm
    · rw [step_doCleanup _ i r k hnf hph]
      exact hmdel h3.1
  · have h3 := hok.state i _ r 3 hph rfl
    rw [stageStateOK, if_pos rfl] at h3
    refine ⟨h3.1, h3.2.2, fun r' hr' => ?_, ?_⟩
    · rw [h3.1] at hr'
      exact Option.some.inj hr'.symm
    · rw [step_chExecCleanup _ i r k hnf hph]
      exact hmdel h3.1

/-- Witness for C2: a lone `Do("k", fn)` reaches its step-4 removal after
three steps with its own record still registered, and the removal empties
the registry. -/
theorem cleanup_removes_only_completed_record_witness :
    mapLookup (run (V := Nat) (E := Nat)
      (init [.doStart "k" (some 2, none)]) [0, 0, 0]).g.m "k" = some 0 ∧
    (recGet (run (V := Nat) (E := Nat)
      (init [.doStart "k" (some 2, none)]) [0, 0, 0]).g.recs 0).dones = 1 ∧
    (∀ r', mapLookup (run (V := Nat) (E := Nat)
      (init [.doStart "k" (some 2, none)]) [0, 0, 0]).g.m "k" = some r' →
      r' = 0) ∧
    mapLookup (stepThread (run (V := Nat) (E := Nat)
      (init [.doStart "k" (some 2, none)]) [0, 0, 0]) 0).g.m "k" = none :=
  cleanup_removes_only_completed_record "k" [.doStart "k" (some 2, none)]
    (by decide) [0, 0, 0] 0 0 (by decide) (Or.inl (by decide))

end GeneralInvariant

end Singleflight

namespace Bloom

theorem foldl_set_length (ps : List Nat) (bs : List Bool) :
    (ps.foldl (fun b p => b.set p true) bs).length = bs.length := by
  induction ps generalizing bs with
  | nil => rfl
  | cons p ps ih =>
    rw [List.foldl_cons, ih, List.length_set]

theorem foldl_set_mono (ps : List Nat) (bs : List Bool) (j : Nat)
    (h : bs.getD j false = true) :
    (ps.foldl (fun b p => b.set p true) bs).getD j false = true := by
  induction ps generalizing bs with
  | nil => exact h
  | cons p ps ih =>
    rw [List.foldl_cons]
    apply ih
    by_cases hpj : p = j
    · subst hpj
      by_cases hp : p < bs.length
      · simp [List.getD_eq_getElem?_getD, List.getElem?_set_eq_of_lt _ hp]
      · rw [List.set_eq_of_length_le (Nat.le_of_not_lt hp)]
        exact h
    · rw [List.getD_eq_getElem?_getD, List.getElem?_set_ne hpj,
        ← List.getD_eq_getElem?_getD]
      exact h

theorem foldl_set_sets (ps : List Nat) (bs : List Bool) (j : Nat)
    (hj : j ∈ ps) (hlen : j < bs.length) :
    (ps.foldl (fun b p => b.set p true) bs).getD j false = true := by
  induction ps generalizing bs with
  | nil => cases hj
  | cons p ps ih =>
    rw [List.foldl_cons]
    rcases List.mem_cons.mp hj with rfl | hj'
    · apply foldl_set_mono
      simp [List.getD_eq_getElem?_getD, List.getElem?_set_eq_of_lt _ hlen]
    · exact ih (bs.set p true) hj' (by simpa [List.length_set] using hlen)

/-- `Add` writes exactly the probed positions of `data`, in order. -/
theorem Add_bitSet (bf : BloomFilter) (d : List Nat) :
    (Add bf d).bitSet = ((List.range bf.hashCount).map
      (position bf d)).foldl (fun bs p => bs.set p true) bf.bitSet := by
  simp [Add, List.foldl_map]

theorem Add_size (bf : BloomFilter) (d : List Nat) :
    (Add bf d).size = bf.size := rfl

theorem Add_hashCount (bf : BloomFilter) (d : List Nat) :
    (Add bf d).hashCount = bf.hashCount := rfl

theorem Add_length (bf : BloomFilter) (d : List Nat) :
    (Add bf d).bitSet.length = bf.bitSet.length := by
  rw [Add_bitSet, foldl_set_length]

/-- Bits only ever turn on: `Contains` survives any further `Add`. -/
theorem contains_Add_mono (bf : BloomFilter) (d' d : List Nat)
    (h : Contains bf d = true) : Contains (Add bf d') d = true := by
  simp only [Contains, List.all_eq_true] at h ⊢
  intro i hi
  rw [Add_bitSet]
  exact foldl_set_mono _ _ _ (h i hi)

theorem contains_addAll_mono (bf : BloomFilter) (ds : List (List Nat))
    (d : List Nat) (h : Contains bf d = true) :
    Contains (addAll bf ds) d = true := by
  induction ds generalizing bf with
  | nil => exact h
  | cons d0 ds ih =>
    rw [addAll, List.foldl_cons, ← addAll]
    exact ih (Add bf d0) (contains_Add_mono bf d0 d h)

/-- Immediately after `Add bf d`, every probed bit of `d` is set. -/
theorem contains_after_Add (bf : BloomFilter) (d : List Nat)
    (hlen : bf.bitSet.length = bf.size) (hsz : 0 < bf.size) :
    Contains (Add bf d) d = true := by
  simp only [Contains, List.all_eq_true]
  intro i hi
  rw [Add_bitSet]
  apply foldl_set_sets
  · exact List.mem_map.mpr ⟨i, hi, rfl⟩
  · rw [hlen]
    exact Nat.mod_lt _ hsz

theorem addAll_size (bf : BloomFilter) (ds : List (List Nat)) :
    (addAll bf ds).size = bf.size := by
  induction ds generalizing bf with
  | nil => rfl
  | cons d0 ds ih =>
    rw [addAll, List.foldl_cons, ← addAll, ih]
    rfl

theorem addAll_length (bf : BloomFilter) (ds : List (List Nat)) :
    (addAll bf ds).bitSet.length = bf.bitSet.length := by
  induction ds generalizing bf with
  | nil => rfl
  | cons d0 ds ih =>
    rw [addAll, List.foldl_cons, ← addAll, ih, Add_length]

/-- Core no-false-negative property: on any well-formed filter state, after
a sequence of `Add` operations, `Contains` answers true for every element
of the sequence. -/
theorem contains_addAll (bf : BloomFilter) (ds : List (List Nat))
    (d : List Nat) (hlen : bf.bitSet.length = bf.size) (hsz : 0 < bf.size)
    (hd : d ∈ ds) : Contains (addAll bf ds) d = true := by
  induction ds generalizing bf with
  | nil => cases hd
  | cons d0 ds ih =>
    rw [addAll, List.foldl_cons, ← addAll]
    rcases List.mem_cons.mp hd with rfl | hd'
    · exact contains_addAll_mono (Add bf d) ds d
        (contains_after_Add bf d hlen hsz)
    · exact ih (Add bf d0) (by rw [Add_length, hlen, Add_size]) hsz hd'

end Bloom

namespace Bloom

theorem Clear_size (bf : BloomFilter) : (Clear bf).size = bf.size := rfl

theorem Clear_length (bf : BloomFilter) :
    (Clear bf).bitSet.length = bf.bitSet.length := by
  simp [Clear]

/-- C10: the bloom filter never produces a false negative.  For a filter
built by `NewBloomFilter` (bitmap size `m ≥ 1`, as `optimalSize` yields for
every intended input `n ≥ 1`, `0 < p < 1`, and any hash count `k`), after
any sequence `ds` of `Add` operations - either since construction or since
a most recent `Clear` (itself preceded by arbitrary `Add`s) - `Contains d`
returns true for every `d` that occurs in `ds`. -/
theorem no_false_negative (m k : Nat) (hm : 0 < m)
    (prior ds : List (List Nat)) (d : List Nat) (hd : d ∈ ds) :
    Contains (addAll (mkBloomFilter m k) ds) d = true ∧
    Contains (addAll (Clear (addAll (mkBloomFilter m k) prior)) ds) d
      = true := by
  constructor
  · exact contains_addAll (mkBloomFilter m k) ds d
      (by simp [mkBloomFilter]) hm hd
  · refine contains_addAll _ ds d ?_ ?_ hd
    · rw [Clear_length, addAll_length, Clear_size, addAll_size]
      simp [mkBloomFilter]
    · rw [Clear_size, addAll_size]
      exact hm

/-- Witness for C10: a concrete filter, a concrete `Add` sequence before and
after a `Clear`, and a concrete queried element. -/
theorem no_false_negative_witness :
    (0 : Nat) < 5 ∧ [1, 2] ∈ [[3, 4], [1, 2]] ∧
    (Contains (addAll (mkBloomFilter 5 3) [[3, 4], [1, 2]]) [1, 2] = true ∧
    Contains (addAll (Clear (addAll (mkBloomFilter 5 3) [[9]]))
      [[3, 4], [1, 2]]) [1, 2] = true) :=
  ⟨by decide, by decide,
    no_false_negative 5 3 (by decide) [[9]] [[3, 4], [1, 2]] [1, 2]
      (by decide)⟩

end Bloom

namespace Singleflight

/-- Witness for C7: on a zero group, `Forget "k"` is a no-op, and in the
concrete interleaving `Do`-register, `Forget`, new `Do`, the new `Do`
registers a fresh record and runs its callable anew. -/
theorem forget_forces_fresh_execution_witness :
    (stepThread (⟨zeroG Nat Nat, [.forgetStart "k"]⟩ : Config Nat Nat) 0
      = ⟨zeroG Nat Nat, [.forgetDone]⟩) ∧
    mapLookup (run (init (V := Nat) (E := Nat)
      [.doStart "k" (some 1, none), .forgetStart "k",
        .doStart "k" (some 2, none)]) [0, 1]).g.m "k" = none ∧
    (run (init (V := Nat) (E := Nat)
      [.doStart "k" (some 1, none), .forgetStart "k",
        .doStart "k" (some 2, none)]) [0, 1]).g.recs.length = 1 ∧
    mapLookup (run (init (V := Nat) (E := Nat)
      [.doStart "k" (some 1, none), .forgetStart "k",
        .doStart "k" (some 2, none)]) [0, 1, 2]).g.m "k" = some 1 ∧
    (run (init (V := Nat) (E := Nat)
      [.doStart "k" (some 1, none), .forgetStart "k",
        .doStart "k" (some 2, none)]) [0, 1, 2]).g.recs.length = 2 ∧
    (run (init (V := Nat) (E := Nat)
      [.doStart "k" (some 1, none), .forgetStart "k",
        .doStart "k" (some 2, none)]) [0, 1, 2, 0, 2, 2, 2, 2]).ths =
      [.doSignal 0 "k", .forgetDone, .retDone (some 2) none] ∧
    (run (init (V := Nat) (E := Nat)
      [.doStart "k" (some 1, none), .forgetStart "k",
        .doStart "k" (some 2, none)]) [0, 1, 2, 0, 2, 2, 2, 2]).g.fnCalls
      = 2 ∧
    (run (init (V := Nat) (E := Nat)
      [.doStart "k" (some 1, none), .forgetStart "k",
        .doStart "k" (some 2, none)]) [0, 1, 2, 0, 2, 2, 2, 2]).g.fault
      = false :=
  forget_forces_fresh_execution "k" (zeroG Nat Nat) (by decide) (by decide)
    (some 1, none) (some 2, none)

end Singleflight
